import Mathlib

/-!
Shallow embedding of the smart-journal semantic-search core
(`src/vector_store.ts`, `src/llm_service.ts` (RAGService), and the
embedding service in `src/unnamed/part_004`), together with proofs
about the claims of its specification.

Modelling conventions:
* JavaScript `Map` and `Set` are modelled as insertion-ordered
  association lists / lists; `Map.set` replaces in place, `Map.delete`
  removes the entry, matching the iteration-order semantics of JS maps.
* JavaScript numbers are modelled as `ℚ` (exact arithmetic).  `Math.sqrt`
  is not rational, so every definition that needs it is parametrised by a
  function `sqrtFn : ℚ → ℚ` standing for `Math.sqrt`; all theorems hold
  for an arbitrary such function, because both the optimised search and
  the reference algorithm use the same stored norms.
* The `Float32Array` copy of an embedding is modelled exactly (no 32-bit
  rounding); none of the claims concern rounding.
* Asynchronous code is sequential in the source (one logical thread with
  awaits); it is modelled by explicit state passing.  Fallible provider
  calls return `Except`.
* Loops whose index is not structurally decreasing are written with an
  explicit fuel argument initialised to a provably sufficient bound, so
  that every definition is executable by the kernel.
-/

namespace SmartJournal

/-! ### JavaScript primitives -/

/-- Lookup in a JavaScript `Map`, modelled as an insertion-ordered
association list (first matching key wins; keys are unique whenever the
map was built by `mapSet`/`mapDelete`). -/
def mapGet [DecidableEq K] : List (K × V) → K → Option V
  | [], _ => none
  | (k', v) :: rest, k => if k' = k then some v else mapGet rest k

/-- JavaScript `Map.prototype.set`: replaces the value in place if the key
is present, otherwise appends the new entry at the end (insertion order). -/
def mapSet [DecidableEq K] : List (K × V) → K → V → List (K × V)
  | [], k, v => [(k, v)]
  | (k', v') :: rest, k, v =>
    if k' = k then (k', v) :: rest else (k', v') :: mapSet rest k v

/-- JavaScript `Map.prototype.delete`: removes the entry for the key. -/
def mapDelete [DecidableEq K] : List (K × V) → K → List (K × V)
  | [], _ => []
  | (k', v') :: rest, k =>
    if k' = k then rest else (k', v') :: mapDelete rest k

/-- JavaScript `Map.prototype.has`. -/
def mapHas [DecidableEq K] (m : List (K × V)) (k : K) : Bool :=
  (mapGet m k).isSome

/-- JavaScript `Map.prototype.values()` (insertion order). -/
def mapValues (m : List (K × V)) : List V := m.map Prod.snd

/-- JavaScript `Set.prototype.add`: appends if not yet present. -/
def setAdd [DecidableEq K] (s : List K) (k : K) : List K :=
  if k ∈ s then s else s ++ [k]

/-- JavaScript `Set.prototype.delete`. -/
def setDelete [DecidableEq K] (s : List K) (k : K) : List K := s.erase k

/-- The character class of the regular expression `\s` (sufficient for the
whitespace characters occurring in the claims). -/
def isJsWs (c : Char) : Bool := c.isWhitespace

/-- JavaScript `String.prototype.trim`. -/
def jsTrim (s : String) : String :=
  ⟨((s.data.dropWhile isJsWs).reverse.dropWhile isJsWs).reverse⟩

/-- Worker for `jsSplitWs`; fuel bounds the number of separator runs and
`cs.length + 1` is always sufficient. -/
def splitWsAux : Nat → List Char → List Char → List (List Char)
  | _, [], cur => [cur.reverse]
  | 0, _ :: _, cur => [cur.reverse]
  | fuel + 1, c :: rest, cur =>
    if isJsWs c then cur.reverse :: splitWsAux fuel (rest.dropWhile isJsWs) []
    else splitWsAux fuel rest (c :: cur)

/-- JavaScript `content.split(/\s+/)`: splits at maximal whitespace runs.
Note the JS quirks this reproduces: `"".split(/\s+/) = [""]`, and a
leading/trailing whitespace run contributes an empty-string element. -/
def jsSplitWs (s : String) : List String :=
  (splitWsAux (s.data.length + 1) s.data []).map fun cs => ⟨cs⟩

/-- Stable insertion of `a` in front of the first element `b` with
`le a b` (i.e. comparator `cmp a b ≤ 0`). -/
def insertSorted (le : α → α → Bool) (a : α) : List α → List α
  | [] => [a]
  | b :: t => if le a b then a :: b :: t else b :: insertSorted le a t

/-- JavaScript `Array.prototype.sort(cmp)` for a comparator inducing the
total preorder `le a b ↔ cmp(a,b) ≤ 0`.  The ECMAScript sort is stable,
and a stable sort's output is uniquely determined by `le`, so this
insertion sort computes the same list as the engine's sort. -/
def jsSortBy (le : α → α → Bool) (l : List α) : List α :=
  l.foldr (insertSorted le) []

/-! ### EmbeddingService (`src/unnamed/part_004`) -/

structure ChunkMetadata where
  filePath : String
  chunkIndex : Nat
  totalChunks : Nat
  noteTitle : String
deriving DecidableEq, Repr

structure DocumentChunk where
  content : String
  metadata : ChunkMetadata
deriving DecidableEq, Repr

structure EmbeddingResult where
  embedding : List ℚ
  text : String
deriving DecidableEq, Repr

/-- The `while (currentIndex < words.length)` loop of
`EmbeddingService.chunkDocument`.  Each iteration either advances
`currentIndex` by `chunkSize - chunkOverlap ≥ 1` or (when
`chunkSize ≤ chunkOverlap`, the source's infinite-loop guard) jumps to
`words.length`, so `words.length + 1` fuel is always sufficient.
`chunkSize - chunkOverlap` is JS number subtraction; when it would be
negative the guard overwrites `currentIndex` anyway, so `Nat`
subtraction is faithful here. -/
def chunkLoop (chunkSize chunkOverlap : Nat) (words : List String)
    (filePath noteTitle : String) : Nat → Nat → Nat → List DocumentChunk
  | 0, _, _ => []
  | fuel + 1, currentIndex, chunkIndex =>
    if currentIndex < words.length then
      let chunkWords := (words.drop currentIndex).take chunkSize
      let chunkContent := String.intercalate " " chunkWords
      let nextIndex := currentIndex + (chunkSize - chunkOverlap)
      let nextIndex := if chunkSize ≤ chunkOverlap then words.length else nextIndex
      ⟨chunkContent, ⟨filePath, chunkIndex, 0, noteTitle⟩⟩ ::
        chunkLoop chunkSize chunkOverlap words filePath noteTitle fuel nextIndex (chunkIndex + 1)
    else []

/-- `EmbeddingService.chunkDocument`: word-based chunking with overlap,
followed by back-filling `totalChunks`.  The `words.length = 0` test is
kept from the source even though `jsSplitWs` never returns `[]`. -/
def chunkDocument (chunkSize chunkOverlap : Nat)
    (content filePath noteTitle : String) : List DocumentChunk :=
  let words := jsSplitWs content
  if words.length = 0 then []
  else
    let chunks := chunkLoop chunkSize chunkOverlap words filePath noteTitle (words.length + 1) 0 0
    chunks.map fun c => { c with metadata := { c.metadata with totalChunks := chunks.length } }

/-- The batch loop of `EmbeddingService.generateEmbeddings`:
slices of 10 texts, each batch awaited as a whole (`Promise.all`
preserves input order; any rejection rejects the whole call).  The
inter-batch delay is timing-only and not modelled.  Fuel
`texts.length` is sufficient since every step drops a nonempty batch. -/
def genEmbedsLoop (provider : String → Except ε (List ℚ)) :
    Nat → List String → Except ε (List EmbeddingResult)
  | _, [] => .ok []
  | 0, _ :: _ => .ok []
  | fuel + 1, texts => do
    let batch := texts.take 10
    let batchResults ← batch.mapM fun text => do
      let embedding ← provider text
      pure ({ embedding := embedding, text := text } : EmbeddingResult)
    let rest ← genEmbedsLoop provider fuel (texts.drop 10)
    pure (batchResults ++ rest)

/-- `EmbeddingService.generateEmbeddings`. -/
def generateEmbeddings (provider : String → Except ε (List ℚ))
    (texts : List String) : Except ε (List EmbeddingResult) :=
  genEmbedsLoop provider texts.length texts

/-- `EmbeddingService.processDocument`: chunk, then embed all chunk texts. -/
def processDocument (provider : String → Except ε (List ℚ))
    (chunkSize chunkOverlap : Nat) (content filePath noteTitle : String) :
    Except ε (List DocumentChunk × List (List ℚ)) :=
  let chunks := chunkDocument chunkSize chunkOverlap content filePath noteTitle
  if chunks.length = 0 then .ok ([], [])
  else do
    let texts := chunks.map (·.content)
    let embeddingResults ← generateEmbeddings provider texts
    pure (chunks, embeddingResults.map (·.embedding))

/-- Slicing a list into consecutive batches of at most `size` elements
(reference notion used to state the batching property of
`generateEmbeddings`). -/
def batchesOf (size : Nat) : Nat → List α → List (List α)
  | _, [] => []
  | 0, _ :: _ => []
  | fuel + 1, l => l.take size :: batchesOf size fuel (l.drop size)

/-! ### VectorStore (`src/vector_store.ts`) -/

structure DocMetadata where
  filePath : String
  chunkIndex : Nat
  totalChunks : Nat
  noteTitle : String
  timestamp : Int
deriving DecidableEq, Repr

structure VectorDocument where
  id : String
  content : String
  embedding : List ℚ
  metadata : DocMetadata
deriving DecidableEq, Repr

/-- Internal representation: the document plus its `Float32Array` copy of
the embedding (modelled exactly) and the pre-computed L2 norm. -/
structure IndexedDocument where
  doc : VectorDocument
  embedding : List ℚ
  norm : ℚ
deriving DecidableEq, Repr

structure SearchResult where
  id : String
  content : String
  metadata : DocMetadata
  similarity : ℚ
deriving DecidableEq, Repr

/-- The in-memory state of a `VectorStore`: the primary document map, the
secondary path index, and whether a debounced save to disk is pending
(`saveTimeout !== null`). -/
structure VectorStore where
  documents : List (String × IndexedDocument)
  pathIndex : List (String × List String)
  saveScheduled : Bool
deriving DecidableEq, Repr

def emptyStore : VectorStore := ⟨[], [], false⟩

/-- The dot-product loop of `cosineSimilarityWithNorms` / the sum loop of
`computeNorm`: iterates over the indices of the first vector.  An
out-of-range access of `b` (a vector-length mismatch, a data error per
the spec) is modelled as 0. -/
def dotProduct (a b : List ℚ) : ℚ :=
  (List.range a.length).foldl (fun acc i => acc + a.getD i 0 * b.getD i 0) 0

def sumSquares (v : List ℚ) : ℚ :=
  v.foldl (fun acc x => acc + x * x) 0

/-- `VectorStore.computeNorm`; `sqrtFn` stands for `Math.sqrt`. -/
def computeNorm (sqrtFn : ℚ → ℚ) (v : List ℚ) : ℚ :=
  sqrtFn (sumSquares v)

/-- `VectorStore.cosineSimilarityWithNorms`: 0 when either norm is 0,
otherwise the dot product divided by the product of the norms. -/
def cosineSimilarityWithNorms (a : List ℚ) (normA : ℚ) (b : List ℚ) (normB : ℚ) : ℚ :=
  if normA = 0 ∨ normB = 0 then 0
  else dotProduct a b / (normA * normB)

/-- `VectorStore.saveToDisk`: schedules a debounced write of the snapshot;
modelled as setting the pending-save flag. -/
def saveToDisk (st : VectorStore) : VectorStore :=
  { st with saveScheduled := true }

/-- `VectorStore.addToIndex`: insert into the primary map (converting the
embedding and pre-computing the norm) and add the id to the path-index
bucket of the document's `filePath`, creating the bucket if absent. -/
def addToIndex (sqrtFn : ℚ → ℚ) (st : VectorStore) (doc : VectorDocument) : VectorStore :=
  let embedding := doc.embedding
  let norm := computeNorm sqrtFn embedding
  let documents := mapSet st.documents doc.id ⟨doc, embedding, norm⟩
  let pathIndex :=
    match mapGet st.pathIndex doc.metadata.filePath with
    | none => mapSet st.pathIndex doc.metadata.filePath (setAdd [] doc.id)
    | some s => mapSet st.pathIndex doc.metadata.filePath (setAdd s doc.id)
  { st with documents := documents, pathIndex := pathIndex }

/-- `VectorStore.removeFromIndex`: remove the id from its path bucket
(dropping the bucket when it becomes empty) and from the primary map. -/
def removeFromIndex (st : VectorStore) (id : String) : VectorStore :=
  match mapGet st.documents id with
  | none => st
  | some indexed =>
    let pathIndex :=
      match mapGet st.pathIndex indexed.doc.metadata.filePath with
      | none => st.pathIndex
      | some pathSet =>
        let pathSet' := setDelete pathSet id
        if pathSet'.length = 0 then mapDelete st.pathIndex indexed.doc.metadata.filePath
        else mapSet st.pathIndex indexed.doc.metadata.filePath pathSet'
    { st with pathIndex := pathIndex, documents := mapDelete st.documents id }

/-- `VectorStore.addDocuments`: no-op on empty input, otherwise index all
documents and schedule a save. -/
def addDocuments (sqrtFn : ℚ → ℚ) (st : VectorStore) (docs : List VectorDocument) : VectorStore :=
  if docs.length = 0 then st
  else saveToDisk (docs.foldl (addToIndex sqrtFn) st)

/-- `VectorStore.updateDocuments`: delete-then-insert per document. -/
def updateDocuments (sqrtFn : ℚ → ℚ) (st : VectorStore) (docs : List VectorDocument) : VectorStore :=
  if docs.length = 0 then st
  else saveToDisk (docs.foldl (fun s d => addToIndex sqrtFn (removeFromIndex s d.id) d) st)

/-- `VectorStore.deleteDocumentsByPath`: no-op when the path has no
bucket; otherwise remove every id of the (snapshotted) bucket and
schedule a save. -/
def deleteDocumentsByPath (st : VectorStore) (filePath : String) : VectorStore :=
  match mapGet st.pathIndex filePath with
  | none => st
  | some ids =>
    if ids.length = 0 then st
    else saveToDisk (ids.foldl removeFromIndex st)

/-- `VectorStore.getDocumentIdsByPath`. -/
def getDocumentIdsByPath (st : VectorStore) (filePath : String) : List String :=
  (mapGet st.pathIndex filePath).getD []

/-- `VectorStore.getCount`. -/
def getCount (st : VectorStore) : Nat := st.documents.length

/-- `VectorStore.clearAll`. -/
def clearAll (st : VectorStore) : VectorStore :=
  saveToDisk { st with documents := [], pathIndex := [] }

/-! #### The top-K min-heap of `VectorStore.search` -/

structure HeapEntry where
  doc : VectorDocument
  similarity : ℚ
deriving DecidableEq, Repr

def dummyEntry : HeapEntry :=
  ⟨⟨"", "", [], ⟨"", 0, 0, "", 0⟩⟩, 0⟩

/-- `heap[i]` (accesses are always in range in the modelled code paths
with `topK ≥ 1`). -/
def entAt (h : List HeapEntry) (i : Nat) : HeapEntry := h.getD i dummyEntry

def simAt (h : List HeapEntry) (i : Nat) : ℚ := (entAt h i).similarity

/-- The destructuring swap `[heap[i], heap[j]] = [heap[j], heap[i]]`. -/
def swapAt (h : List HeapEntry) (i j : Nat) : List HeapEntry :=
  (h.set i (entAt h j)).set j (entAt h i)

/-- The `while` loop of `VectorStore.heapBubbleUp`; the index strictly
decreases, so `h.length` fuel is always sufficient. -/
def bubbleUpLoop : Nat → List HeapEntry → Nat → List HeapEntry
  | 0, h, _ => h
  | fuel + 1, h, i =>
    if 0 < i then
      let parent := (i - 1) / 2
      if simAt h i < simAt h parent then bubbleUpLoop fuel (swapAt h i parent) parent
      else h
    else h

/-- `VectorStore.heapBubbleUp` (starts from the last element). -/
def heapBubbleUp (h : List HeapEntry) : List HeapEntry :=
  bubbleUpLoop h.length h (h.length - 1)

/-- The `while (true)` loop of `VectorStore.heapBubbleDown`; the index
strictly increases and stays below `h.length`, so `h.length` fuel is
always sufficient. -/
def bubbleDownLoop : Nat → List HeapEntry → Nat → List HeapEntry
  | 0, h, _ => h
  | fuel + 1, h, i =>
    let n := h.length
    let left := 2 * i + 1
    let right := 2 * i + 2
    let s1 := if left < n ∧ simAt h left < simAt h i then left else i
    let s2 := if right < n ∧ simAt h right < simAt h s1 then right else s1
    if s2 ≠ i then bubbleDownLoop fuel (swapAt h i s2) s2 else h

/-- `VectorStore.heapBubbleDown` (starts from the root). -/
def heapBubbleDown (h : List HeapEntry) : List HeapEntry :=
  bubbleDownLoop h.length h 0

/-- One iteration of the search loop, after the threshold filter: push
while the heap is below `topK`, else replace the root when the new
similarity is strictly greater than the root's. -/
def searchStep (topK : Nat) (heap : List HeapEntry) (e : HeapEntry) : List HeapEntry :=
  if heap.length < topK then heapBubbleUp (heap ++ [e])
  else if simAt heap 0 < e.similarity then heapBubbleDown (heap.set 0 e)
  else heap

/-- The comparator `(a, b) => b.similarity - a.similarity` as the induced
total preorder: `a` sorts before `b` iff `b.similarity ≤ a.similarity`. -/
def leSimDesc (a b : HeapEntry) : Bool := decide (b.similarity ≤ a.similarity)

def toSearchResult (e : HeapEntry) : SearchResult :=
  ⟨e.doc.id, e.doc.content, e.doc.metadata, e.similarity⟩

/-- `VectorStore.search`: zero-norm query short-circuit, then one pass
over `documents.values()` maintaining a size-`topK` min-heap, finally a
descending stable sort of the heap.  (For `topK = 0` the source throws a
`TypeError` on `heap[0]` as soon as a document passes the threshold; that
path is outside this model, and all theorems assume `0 < topK`.) -/
def search (sqrtFn : ℚ → ℚ) (st : VectorStore) (queryEmbedding : List ℚ)
    (topK : Nat) (similarityThreshold : ℚ) : List SearchResult :=
  let queryVec := queryEmbedding
  let queryNorm := computeNorm sqrtFn queryVec
  if queryNorm = 0 then []
  else
    let heap := (mapValues st.documents).foldl
      (fun heap indexed =>
        let similarity :=
          cosineSimilarityWithNorms queryVec queryNorm indexed.embedding indexed.norm
        if similarity < similarityThreshold then heap
        else searchStep topK heap ⟨indexed.doc, similarity⟩)
      []
    (jsSortBy leSimDesc heap).map toSearchResult

/-- State-passing form of `VectorStore.search`: the method body only
reads `this.documents` into local variables (query vector, norm, heap)
and contains no assignment to any field and no `saveToDisk` call, so its
embedding returns the store component unchanged. -/
def searchM (sqrtFn : ℚ → ℚ) (st : VectorStore) (queryEmbedding : List ℚ)
    (topK : Nat) (similarityThreshold : ℚ) : VectorStore × List SearchResult :=
  (st, search sqrtFn st queryEmbedding topK similarityThreshold)

/-- The per-document similarity entries of one search pass, restricted to
those meeting the threshold (the entries on which the heap operates). -/
def qualifiedEntries (sqrtFn : ℚ → ℚ) (st : VectorStore) (q : List ℚ) (t : ℚ) :
    List HeapEntry :=
  let queryNorm := computeNorm sqrtFn q
  ((mapValues st.documents).map fun ix =>
      (⟨ix.doc, cosineSimilarityWithNorms q queryNorm ix.embedding ix.norm⟩ : HeapEntry)).filter
    fun e => ¬ e.similarity < t

/-- Reference algorithm of claim C1, written from the spec's words: compute
the cosine similarity of every stored document, filter by
`similarity ≥ t`, sort descending by similarity (stable), truncate to the
first `k`. -/
def specSearch (sqrtFn : ℚ → ℚ) (st : VectorStore) (q : List ℚ) (k : Nat) (t : ℚ) :
    List SearchResult :=
  ((jsSortBy leSimDesc (qualifiedEntries sqrtFn st q t)).take k).map toSearchResult

/-! ### RAGService (`src/llm_service.ts`) -/

/-- `RAGService.hashContent` (djb2): in JS,
`hash = ((hash << 5) + hash + content.charCodeAt(i)) & 0xffffffff` keeps a
signed 32-bit value; since signed and unsigned representatives agree
modulo `2^32` and the final `toString(36)` rendering is injective on
32-bit values, storing the value modulo `2^32` preserves exactly the
equality of stored hash strings.  `charCodeAt` (UTF-16 unit) agrees with
`Char.toNat` on the basic plane. -/
def hashContent (content : String) : Nat :=
  content.data.foldl (fun hash c => (hash * 33 + c.toNat) % 4294967296) 5381

/-- The parts of the `RAGService` state that indexing touches: the
initialization flag, the vector store, the content-hash registry
(`path ↦ hash`), and whether a debounced save of the hashes is pending. -/
structure RAGState where
  isInitialized : Bool
  store : VectorStore
  contentHashes : List (String × Nat)
  hashSaveScheduled : Bool
deriving DecidableEq, Repr

/-- Errors `indexFile` can propagate: the not-initialized guard, or an
error from the embedding provider. -/
inductive IndexError (ε : Type) where
  | notInitialized
  | embedding (e : ε)
deriving DecidableEq, Repr

/-- Instrumentation of the batch loop of `generateEmbeddings`: the texts
for which a provider request is issued.  All requests of a batch are
fired together (`Promise.all`), so a failing batch still issues its
whole batch and no later batch is started. -/
def embedCallsLoop (provider : String → Except ε (List ℚ)) :
    Nat → List String → List String
  | _, [] => []
  | 0, _ :: _ => []
  | fuel + 1, texts =>
    let batch := texts.take 10
    if batch.all fun t => (provider t).isOk then
      batch ++ embedCallsLoop provider fuel (texts.drop 10)
    else batch

/-- The provider requests issued by one `generateEmbeddings` call. -/
def embedCalls (provider : String → Except ε (List ℚ)) (texts : List String) :
    List String :=
  embedCallsLoop provider texts.length texts

/-- `RAGService.indexFile`, with the file's content, basename and mtime
passed in place of the `vault.read(file)` call.  Returns the state after
the call, the provider requests issued, and the propagated error if any.
The structure mirrors the source: not-initialized guard; hash-skip;
empty-content skip (records the hash, schedules a hash save); embedding
(`processDocument`); on success only, delete-then-add in the store and
record the hash.  On the `chunks.length === 0` branch the source records
the hash without calling `saveContentHashes`. -/
def indexFile (provider : String → Except ε (List ℚ)) (sqrtFn : ℚ → ℚ)
    (chunkSize chunkOverlap : Nat) (st : RAGState)
    (filePath basename : String) (content : String) (mtime : Int) :
    RAGState × List String × Option (IndexError ε) :=
  if st.isInitialized = false then (st, [], some .notInitialized)
  else
    let contentHash := hashContent content
    let previousHash := mapGet st.contentHashes filePath
    if previousHash = some contentHash then (st, [], none)
    else if (jsTrim content).length = 0 then
      ({ st with contentHashes := mapSet st.contentHashes filePath contentHash,
                 hashSaveScheduled := true }, [], none)
    else
      match processDocument provider chunkSize chunkOverlap content filePath basename with
      | .error e =>
        (st, embedCalls provider ((chunkDocument chunkSize chunkOverlap content filePath basename).map (·.content)),
         some (.embedding e))
      | .ok (chunks, embeddings) =>
        if chunks.length = 0 then
          ({ st with contentHashes := mapSet st.contentHashes filePath contentHash }, [], none)
        else
          let vectorDocuments : List VectorDocument := chunks.enum.map fun (index, chunk) =>
            { id := filePath ++ "::chunk::" ++ toString chunk.metadata.chunkIndex,
              content := chunk.content,
              embedding := embeddings.getD index [],
              metadata :=
                { filePath := filePath,
                  chunkIndex := chunk.metadata.chunkIndex,
                  totalChunks := chunk.metadata.totalChunks,
                  noteTitle := chunk.metadata.noteTitle,
                  timestamp := mtime } }
          let store1 := deleteDocumentsByPath st.store filePath
          let store2 := addDocuments sqrtFn store1 vectorDocuments
          ({ st with store := store2,
                     contentHashes := mapSet st.contentHashes filePath contentHash,
                     hashSaveScheduled := true },
           embedCalls provider (chunks.map (·.content)), none)

/-! #### `RAGService.formatContext` -/

def defaultSearchResult : SearchResult :=
  ⟨"", "", ⟨"", 0, 0, "", 0⟩, 0⟩

/-- The grouping loop of `formatContext`: one pass over the chunks,
pushing each chunk onto the bucket of its `filePath` (creating the
bucket on first encounter, so buckets appear in first-encounter order). -/
def groupChunksLoop : List SearchResult → List (String × List SearchResult) →
    List (String × List SearchResult)
  | [], acc => acc
  | c :: rest, acc =>
    let fp := c.metadata.filePath
    match mapGet acc fp with
    | none => groupChunksLoop rest (mapSet acc fp [c])
    | some g => groupChunksLoop rest (mapSet acc fp (g ++ [c]))

def chunksByFile (chunks : List SearchResult) : List (String × List SearchResult) :=
  groupChunksLoop chunks []

/-- The comparator `(a, b) => a.metadata.chunkIndex - b.metadata.chunkIndex`
as the induced total preorder. -/
def leChunkIdx (a b : SearchResult) : Bool :=
  decide (a.metadata.chunkIndex ≤ b.metadata.chunkIndex)

/-- `RAGService.formatContext`: `""` on empty input, otherwise a header
followed, per file bucket, by a title heading (from the bucket's first
chunk), the chunk contents sorted ascending by `chunkIndex`, and a
separator. -/
def formatContext (chunks : List SearchResult) : String :=
  if chunks.length = 0 then ""
  else
    (chunksByFile chunks).foldl
      (fun context (_fp, fileChunks) =>
        let noteTitle := (fileChunks.headD defaultSearchResult).metadata.noteTitle
        let context := context ++ "### From: [[" ++ noteTitle ++ "]]\n"
        let context := (jsSortBy leChunkIdx fileChunks).foldl
          (fun ctx chunk => ctx ++ chunk.content ++ "\n\n") context
        context ++ "---\n\n")
      "Here are relevant excerpts from your notes:\n\n"

/-- The distinct elements of a list in first-occurrence order. -/
def firstOccurrences [DecidableEq α] : List α → List α
  | [] => []
  | a :: l => a :: firstOccurrences (l.filter (· ≠ a))
termination_by l => l.length
decreasing_by
  simp only [List.length_cons]
  exact Nat.lt_succ_of_le (List.length_filter_le _ _)

/-- Reference formatter of claim C8, written from the claim's words: group
the chunks by source file path (in first-encounter order), sort each
group ascending by `chunkIndex`, and emit one block per file consisting
of the note-title heading, the concatenated chunk texts, and a
separator; the empty input yields the empty string. -/
def specFormatContext (chunks : List SearchResult) : String :=
  if chunks.length = 0 then ""
  else
    let groups := (firstOccurrences (chunks.map (·.metadata.filePath))).map
      fun p => (p, chunks.filter fun c => c.metadata.filePath = p)
    groups.foldl
      (fun context (_fp, group) =>
        let context := context ++ "### From: [["
          ++ (group.headD defaultSearchResult).metadata.noteTitle ++ "]]\n"
        let context := (jsSortBy leChunkIdx group).foldl
          (fun ctx chunk => ctx ++ chunk.content ++ "\n\n") context
        context ++ "---\n\n")
      "Here are relevant excerpts from your notes:\n\n"

/-! ### Reference definitions for claim C10 -/

/-- The value of a successful provider call (used only to state results
under the hypothesis that every call succeeded). -/
def exceptValue : Except ε (List ℚ) → List ℚ
  | .ok v => v
  | .error _ => []

/-- Reference form of the batch loop: run the given batches in order,
each batch as one `Promise.all` of provider calls. -/
def runBatches (provider : String → Except ε (List ℚ)) :
    List (List String) → Except ε (List EmbeddingResult)
  | [] => .ok []
  | b :: bs => do
    let batchResults ← b.mapM fun text => do
      let embedding ← provider text
      pure ({ embedding := embedding, text := text } : EmbeddingResult)
    let rest ← runBatches provider bs
    pure (batchResults ++ rest)

/-- Provider that always succeeds (used in the C10 witness). -/
def okProvider : String → Except Unit (List ℚ) := fun _ => .ok [1]

/-- Provider failing on the text "b" (used in the C10 witness). -/
def failProvider : String → Except Unit (List ℚ) :=
  fun t => if t = "b" then .error () else .ok [1]

/-- Provider whose every call fails (used in the C2 witness). -/
def alwaysFailProvider : String → Except Unit (List ℚ) := fun _ => .error ()

/-- Witness state and failing provider for C2. -/
def c2State : RAGState :=
  ⟨true,
   addDocuments (fun _ => 1) emptyStore
     [⟨"n.md::chunk::0", "old", [], ⟨"n.md", 0, 1, "n", 0⟩⟩],
   [("n.md", 12345)], false⟩

/-- Witness states for C4: a fresh initialized state; the first index run
of "hello world" (provider returning empty embeddings) succeeds, and the
second run is a no-op. -/
def c4State : RAGState := ⟨true, emptyStore, [], false⟩

/-- Provider returning an empty embedding vector (keeps the witness free
of rational arithmetic). -/
def emptyEmbedProvider : String → Except Unit (List ℚ) := fun _ => .ok []

/-! ### Reachability and the path-index invariant (claim C3) -/

/-- Precondition under which `addDocuments` keeps the path index
consistent: no document re-uses an id that is currently stored — or that
occurs earlier in the same batch — under a different file path.  The
source relies on its callers for this (chunk ids embed the file path);
`c3_counterexample` shows the invariant breaks without it. -/
def AddDocsOk (st : VectorStore) (docs : List VectorDocument) : Prop :=
  (∀ d ∈ docs, ∀ e, mapGet st.documents d.id = some e →
      e.doc.metadata.filePath = d.metadata.filePath) ∧
  docs.Pairwise fun d1 d2 => d1.id = d2.id → d1.metadata.filePath = d2.metadata.filePath

/-- One public mutating `VectorStore` call (adds restricted by
`AddDocsOk`). -/
inductive GoodStep (sqrtFn : ℚ → ℚ) : VectorStore → VectorStore → Prop where
  | add (st : VectorStore) (docs : List VectorDocument) (h : AddDocsOk st docs) :
      GoodStep sqrtFn st (addDocuments sqrtFn st docs)
  | update (st : VectorStore) (docs : List VectorDocument) :
      GoodStep sqrtFn st (updateDocuments sqrtFn st docs)
  | delete (st : VectorStore) (p : String) :
      GoodStep sqrtFn st (deleteDocumentsByPath st p)

/-- States reachable from the empty store by sequences of
`addDocuments` / `updateDocuments` / `deleteDocumentsByPath` calls. -/
def Reachable (sqrtFn : ℚ → ℚ) (st : VectorStore) : Prop :=
  Relation.ReflTransGen (GoodStep sqrtFn) emptyStore st

/-- Consistency of the primary document map and the path index: unique
keys, no empty buckets, bucket members point to stored documents of that
path, and every stored document's id is in the bucket of its path. -/
def StoreInv (st : VectorStore) : Prop :=
  (st.documents.map Prod.fst).Nodup ∧
  (st.pathIndex.map Prod.fst).Nodup ∧
  (∀ p s, mapGet st.pathIndex p = some s → s ≠ [] ∧ s.Nodup ∧
    ∀ i ∈ s, ∃ e, mapGet st.documents i = some e ∧ e.doc.metadata.filePath = p) ∧
  (∀ i e, mapGet st.documents i = some e →
    ∃ s, mapGet st.pathIndex e.doc.metadata.filePath = some s ∧ i ∈ s)

/-- Documents used by the C3 counterexample: the same id first under
path "a.md", then re-added under path "b.md". -/
def c3DocA : VectorDocument := ⟨"x", "", [], ⟨"a.md", 0, 1, "A", 0⟩⟩

def c3DocB : VectorDocument := ⟨"x", "", [], ⟨"b.md", 0, 1, "B", 0⟩⟩

/-- The store after `addDocuments [c3DocA]; addDocuments [c3DocB]`. -/
def c3BadState : VectorStore :=
  addDocuments (fun _ => 1) (addDocuments (fun _ => 1) emptyStore [c3DocA]) [c3DocB]

/-- Documents of the C3 witness (the spec's own example scenario: two
chunks for "notes/a.md", one for "notes/b.md"). -/
def c3WitnessDocs : List VectorDocument :=
  [⟨"notes/a.md::chunk::0", "a0", [], ⟨"notes/a.md", 0, 2, "a", 0⟩⟩,
   ⟨"notes/a.md::chunk::1", "a1", [], ⟨"notes/a.md", 1, 2, "a", 0⟩⟩,
   ⟨"notes/b.md::chunk::0", "b0", [], ⟨"notes/b.md", 0, 1, "b", 0⟩⟩]

/-- The C3 witness store: add the three documents, then delete the
chunks of "notes/a.md". -/
def c3WitnessState : VectorStore :=
  deleteDocumentsByPath (addDocuments (fun _ => 1) emptyStore c3WitnessDocs) "notes/a.md"

/-! ### Specification notions for claim C1 (heap-based top-K search) -/

/-- The binary min-heap property of the array `heap` used by `search`:
every non-root element is at least its parent. -/
def IsHeap (h : List HeapEntry) : Prop :=
  ∀ j, 0 < j → j < h.length → simAt h ((j - 1) / 2) ≤ simAt h j

/-- Invariant of the `heapBubbleUp` loop at index `i`: the heap property
holds everywhere except possibly between `i` and its parent, and `i`'s
parent is below `i`'s children. -/
def UpInv (h : List HeapEntry) (i : Nat) : Prop :=
  (∀ j, 0 < j → j < h.length → j ≠ i → simAt h ((j - 1) / 2) ≤ simAt h j) ∧
  (0 < i → ∀ j, j < h.length → (j - 1) / 2 = i → 0 < j →
    simAt h ((i - 1) / 2) ≤ simAt h j)

/-- Invariant of the `heapBubbleDown` loop at index `i`: the heap
property holds everywhere except possibly between `i` and its two
children, and `i`'s parent is below `i`'s children. -/
def DownInv (h : List HeapEntry) (i : Nat) : Prop :=
  (∀ j, 0 < j → j < h.length → j ≠ 2 * i + 1 → j ≠ 2 * i + 2 →
    simAt h ((j - 1) / 2) ≤ simAt h j) ∧
  (0 < i → ∀ j, j < h.length → (j = 2 * i + 1 ∨ j = 2 * i + 2) →
    simAt h ((i - 1) / 2) ≤ simAt h j)

/-- Pairwise-distinct similarities (the no-ties hypothesis of the amended
claim C1). -/
def DistinctSims (l : List HeapEntry) : Prop :=
  l.Pairwise fun a b => a.similarity ≠ b.similarity

/-- The reference top-K selection: sort descending (stably) and keep the
first `k`. -/
def topkSpec (k : Nat) (l : List HeapEntry) : List HeapEntry :=
  (jsSortBy leSimDesc l).take k

/-- `S` is a top-`k` sub-multiset of `M`: it has `min k |M|` elements and
every element outside it is strictly below every element inside it. -/
def IsTopK (k : Nat) (M S : Multiset HeapEntry) : Prop :=
  S ≤ M ∧ Multiset.card S = min k (Multiset.card M) ∧
  ∀ a ∈ S, ∀ b ∈ M - S, b.similarity < a.similarity

/-- Distinct similarities at the multiset level. -/
def MDistinct (M : Multiset HeapEntry) : Prop :=
  M.Nodup ∧ ∀ a ∈ M, ∀ b ∈ M, a.similarity = b.similarity → a = b

/-- The search-loop invariant after processing the qualifying entries
`P`: the heap is a min-heap of `min k |P|` entries drawn from `P`, and —
when similarities are pairwise distinct — its contents are exactly the
top-`k` of `P`. -/
def SearchInv (k : Nat) (P h : List HeapEntry) : Prop :=
  IsHeap h ∧ h.length = min k P.length ∧
  (h : Multiset HeapEntry) ≤ (P : Multiset HeapEntry) ∧
  (DistinctSims P → IsTopK k (P : Multiset HeapEntry) (h : Multiset HeapEntry))

/-- Store of the C1 counterexample: two documents tied at similarity 3
(in store order before the similarity-5 document), queried with `[1]`
under `sqrtFn = const 1`, so that the heap keeps the later tied document
while the stable-sort reference keeps the earlier one. -/
def c1TieStore : VectorStore :=
  addDocuments (fun _ => 1) emptyStore
    [⟨"p1", "c1", [3], ⟨"a.md", 0, 1, "a", 0⟩⟩,
     ⟨"p2", "c2", [3], ⟨"b.md", 0, 1, "b", 0⟩⟩,
     ⟨"p3", "c3", [5], ⟨"c.md", 0, 1, "c", 0⟩⟩]

/-- Store of the C1 witness: three documents with pairwise-distinct
similarities 3, 4, 5 for the query `[1]` under `sqrtFn = const 1`. -/
def c1WitnessStore : VectorStore :=
  addDocuments (fun _ => 1) emptyStore
    [⟨"p1", "c1", [3], ⟨"a.md", 0, 1, "a", 0⟩⟩,
     ⟨"p2", "c2", [4], ⟨"b.md", 0, 1, "b", 0⟩⟩,
     ⟨"p3", "c3", [5], ⟨"c.md", 0, 1, "c", 0⟩⟩]

/-! ### Association-list map lemmas -/

variable {K : Type} {V : Type} [DecidableEq K]

theorem mapGet_set_self (m : List (K × V)) (k : K) (v : V) :
    mapGet (mapSet m k v) k = some v := by
  induction m with
  | nil => simp [mapSet, mapGet]
  | cons kv rest ih =>
    obtain ⟨k', v'⟩ := kv
    by_cases h : k' = k <;> simp [mapSet, mapGet, h, ih]

theorem mapGet_set_ne (m : List (K × V)) (k k' : K) (v : V) (h : k' ≠ k) :
    mapGet (mapSet m k v) k' = mapGet m k' := by
  have h' : k ≠ k' := Ne.symm h
  induction m with
  | nil => simp [mapSet, mapGet, h']
  | cons kv rest ih =>
    obtain ⟨k₀, v₀⟩ := kv
    by_cases h0 : k₀ = k
    · subst h0
      simp [mapSet, mapGet, h']
    · by_cases h1 : k₀ = k' <;> simp [mapSet, mapGet, h0, h1, h, ih]

theorem mapGet_delete_ne (m : List (K × V)) (k k' : K) (h : k' ≠ k) :
    mapGet (mapDelete m k) k' = mapGet m k' := by
  have h' : k ≠ k' := Ne.symm h
  induction m with
  | nil => simp [mapDelete]
  | cons kv rest ih =>
    obtain ⟨k₀, v₀⟩ := kv
    by_cases h0 : k₀ = k
    · subst h0
      simp [mapDelete, mapGet, h']
    · simp [mapDelete, mapGet, h0, ih]

theorem keys_mapSet_of_get_some (m : List (K × V)) (k : K) (v : V)
    (h : (mapGet m k).isSome) : (mapSet m k v).map Prod.fst = m.map Prod.fst := by
  induction m with
  | nil => simp [mapGet] at h
  | cons kv rest ih =>
    obtain ⟨k₀, v₀⟩ := kv
    by_cases h0 : k₀ = k
    · simp [mapSet, h0]
    · simp [mapGet, h0] at h
      simp [mapSet, h0, ih h]

theorem keys_mapSet_of_get_none (m : List (K × V)) (k : K) (v : V)
    (h : mapGet m k = none) : (mapSet m k v).map Prod.fst = m.map Prod.fst ++ [k] := by
  induction m with
  | nil => simp [mapSet]
  | cons kv rest ih =>
    obtain ⟨k₀, v₀⟩ := kv
    by_cases h0 : k₀ = k
    · simp [mapGet, h0] at h
    · simp [mapGet, h0] at h
      simp [mapSet, h0, ih h]

theorem keys_mapDelete (m : List (K × V)) (k : K) :
    (mapDelete m k).map Prod.fst = (m.map Prod.fst).erase k := by
  induction m with
  | nil => simp [mapDelete]
  | cons kv rest ih =>
    obtain ⟨k₀, v₀⟩ := kv
    by_cases h0 : k₀ = k
    · subst h0
      simp [mapDelete, List.erase_cons_head]
    · have : (k₀ == k) = false := by simp [h0]
      simp [mapDelete, h0, List.erase_cons, this, ih]

theorem mapGet_isSome_of_mem_keys (m : List (K × V)) (k : K)
    (h : k ∈ m.map Prod.fst) : (mapGet m k).isSome := by
  induction m with
  | nil => simp at h
  | cons kv rest ih =>
    obtain ⟨k₀, v₀⟩ := kv
    by_cases h0 : k₀ = k
    · simp [mapGet, h0]
    · simp [h0] at h
      rcases h with h | h
      · exact absurd h.symm h0
      · simp [mapGet, h0, ih (by simpa using h)]

theorem mem_keys_of_mapGet_isSome (m : List (K × V)) (k : K)
    (h : (mapGet m k).isSome) : k ∈ m.map Prod.fst := by
  induction m with
  | nil => simp [mapGet] at h
  | cons kv rest ih =>
    obtain ⟨k₀, v₀⟩ := kv
    by_cases h0 : k₀ = k
    · simp [h0]
    · simp [mapGet, h0] at h
      simp [ih h]

theorem nodupKeys_mapSet (m : List (K × V)) (k : K) (v : V)
    (h : (m.map Prod.fst).Nodup) : ((mapSet m k v).map Prod.fst).Nodup := by
  cases hg : mapGet m k with
  | none =>
    rw [keys_mapSet_of_get_none m k v hg]
    refine List.Nodup.append h (List.nodup_singleton k) ?_
    intro a ha hb
    simp only [List.mem_singleton] at hb
    subst hb
    have hs := mapGet_isSome_of_mem_keys m a ha
    rw [hg] at hs
    simp at hs
  | some w =>
    rw [keys_mapSet_of_get_some m k v (by simp [hg])]
    exact h

theorem nodupKeys_mapDelete (m : List (K × V)) (k : K)
    (h : (m.map Prod.fst).Nodup) : ((mapDelete m k).map Prod.fst).Nodup := by
  rw [keys_mapDelete]
  exact h.erase k

theorem mapGet_delete_self (m : List (K × V)) (k : K)
    (h : (m.map Prod.fst).Nodup) : mapGet (mapDelete m k) k = none := by
  induction m with
  | nil => simp [mapDelete, mapGet]
  | cons kv rest ih =>
    obtain ⟨k₀, v₀⟩ := kv
    rw [List.map_cons, List.nodup_cons] at h
    by_cases h0 : k₀ = k
    · subst h0
      simp only [mapDelete, if_pos trivial, if_true, eq_self_iff_true]
      cases hg : mapGet rest k₀ with
      | none => simp [hg]
      | some w =>
        exact absurd (mem_keys_of_mapGet_isSome rest k₀ (by simp [hg])) h.1
    · simp [mapDelete, mapGet, h0, ih h.2]

/-! ### Stable-sort lemmas -/

theorem insertSorted_perm (le : α → α → Bool) (a : α) (l : List α) :
    (insertSorted le a l).Perm (a :: l) := by
  induction l with
  | nil => simp [insertSorted]
  | cons b t ih =>
    by_cases h : le a b
    · simp [insertSorted, h]
    · simp only [insertSorted, h, Bool.false_eq_true, if_false]
      exact (ih.cons b).trans (List.Perm.swap a b t)

theorem jsSortBy_perm (le : α → α → Bool) (l : List α) : (jsSortBy le l).Perm l := by
  induction l with
  | nil => simp [jsSortBy]
  | cons a t ih =>
    simp only [jsSortBy, List.foldr_cons]
    exact (insertSorted_perm le a _).trans (ih.cons a)

theorem pairwise_insertSorted (le : α → α → Bool) (R : α → α → Prop)
    (hle : ∀ a b, le a b = true → R a b)
    (htot : ∀ a b, le a b = true ∨ le b a = true)
    (htrans : ∀ a b c, R a b → R b c → R a c)
    (a : α) (l : List α) (hl : l.Pairwise R) :
    (insertSorted le a l).Pairwise R := by
  induction l with
  | nil => simp [insertSorted]
  | cons b t ih =>
    rcases List.pairwise_cons.mp hl with ⟨hb, ht⟩
    by_cases h : le a b
    · simp only [insertSorted, h, if_true]
      refine List.pairwise_cons.mpr ⟨?_, hl⟩
      intro x hx
      rcases List.mem_cons.mp hx with rfl | hx
      · exact hle a x h
      · exact htrans a b x (hle a b h) (hb x hx)
    · simp only [insertSorted, h, Bool.false_eq_true, if_false]
      refine List.pairwise_cons.mpr ⟨?_, ih ht⟩
      intro x hx
      have hba : R b a := hle b a ((htot a b).resolve_left h)
      have := (insertSorted_perm le a t).mem_iff.mp hx
      rcases List.mem_cons.mp this with rfl | hx'
      · exact hba
      · exact hb x hx'

theorem pairwise_jsSortBy (le : α → α → Bool) (R : α → α → Prop)
    (hle : ∀ a b, le a b = true → R a b)
    (htot : ∀ a b, le a b = true ∨ le b a = true)
    (htrans : ∀ a b c, R a b → R b c → R a c)
    (l : List α) : (jsSortBy le l).Pairwise R := by
  induction l with
  | nil => simp [jsSortBy]
  | cons a t ih =>
    simp only [jsSortBy, List.foldr_cons]
    exact pairwise_insertSorted le R hle htot htrans a _ ih

/-! ### Claim C5: the worked chunking example -/

/-- Claim C5 is false on the code: chunking "alpha beta gamma delta" with
size 2 and overlap 1 yields FOUR chunks, not three — the window also
starts at the final word, producing a fourth chunk "delta". -/
theorem c5_counterexample :
    (chunkDocument 2 1 "alpha beta gamma delta" "A.md" "A").length ≠ 3 := by decide

/-- Claim C5 (amended): chunking "alpha beta gamma delta" with size 2 and
overlap 1 yields exactly four chunks "alpha beta", "beta gamma",
"gamma delta", "delta" with chunkIndex 0, 1, 2, 3 and totalChunks 4 on
every chunk. -/
theorem c5_amended :
    (chunkDocument 2 1 "alpha beta gamma delta" "A.md" "A").map
        (fun c => (c.content, c.metadata.chunkIndex, c.metadata.totalChunks)) =
      [("alpha beta", 0, 4), ("beta gamma", 1, 4), ("gamma delta", 2, 4), ("delta", 3, 4)] := by
  decide

/-! ### Claim C6: empty / whitespace-only content -/

/-- Claim C6 is violated by the code: `"".split(/\s+/)` is `[""]` (and
`" ".split(/\s+/)` is `["", ""]`), so the `words.length === 0` guard of
`chunkDocument` never fires and empty or whitespace-only content yields
ONE chunk (with empty/whitespace content), not zero chunks — for every
chunk-size/overlap configuration. -/
theorem c6_code_divergence :
    (chunkDocument 512 50 "" "f.md" "f").map (·.content) = [""] ∧
    (chunkDocument 512 50 " " "f.md" "f").map (·.content) = [" "] ∧
    ∀ chunkSize chunkOverlap : Nat,
      (chunkDocument chunkSize chunkOverlap "" "f.md" "f").length = 1 := by
  refine ⟨by decide, by decide, fun cs ov => ?_⟩
  have hw : jsSplitWs "" = [""] := by decide
  simp only [chunkDocument, hw, List.length_singleton, List.length_map]
  norm_num
  by_cases h : cs ≤ ov
  · simp [chunkLoop, h]
  · have h1 : ¬ cs - ov < 1 := by omega
    simp [chunkLoop, h, h1]

/-! ### Claim C7: zero-norm safety -/

/-- Claim C7: cosine similarity is 0 (not a division error) whenever either
norm is 0, and a zero-norm query makes `search` return `[]` immediately,
for every store, topK and threshold. -/
theorem c7_zero_norm_safety :
    (∀ (a b : List ℚ) (normA normB : ℚ), normA = 0 ∨ normB = 0 →
      cosineSimilarityWithNorms a normA b normB = 0) ∧
    (∀ (sqrtFn : ℚ → ℚ) (st : VectorStore) (q : List ℚ) (k : Nat) (t : ℚ),
      computeNorm sqrtFn q = 0 → search sqrtFn st q k t = []) := by
  constructor
  · intro a b normA normB h
    simp [cosineSimilarityWithNorms, h]
  · intro sqrtFn st q k t h
    simp [search, h]

/-- Witness for C7 at concrete inputs. -/
theorem c7_witness :
    cosineSimilarityWithNorms [1] 0 [1] 1 = 0 ∧
    search (fun _ => 0) emptyStore [1] 5 (7/10) = [] :=
  ⟨c7_zero_norm_safety.1 [1] [1] 0 1 (Or.inl rfl),
   c7_zero_norm_safety.2 (fun _ => 0) emptyStore [1] 5 (7/10) rfl⟩

/-! ### Claim C9: search is read-only -/

/-- Claim C9: `search` mutates nothing — the store returned by the
state-passing embedding is the input store in every field (documents,
path index, and the pending-save flag: no persist is scheduled). -/
theorem c9_search_readonly :
    ∀ (sqrtFn : ℚ → ℚ) (st : VectorStore) (q : List ℚ) (k : Nat) (t : ℚ),
      (searchM sqrtFn st q k t).1 = st ∧
      (searchM sqrtFn st q k t).1.documents = st.documents ∧
      (searchM sqrtFn st q k t).1.pathIndex = st.pathIndex ∧
      (searchM sqrtFn st q k t).1.saveScheduled = st.saveScheduled := by
  intro sqrtFn st q k t
  exact ⟨rfl, rfl, rfl, rfl⟩

/-! ### Claim C10: generateEmbeddings -/

theorem genEmbedsLoop_eq_runBatches (provider : String → Except ε (List ℚ)) :
    ∀ (fuel : Nat) (texts : List String),
      genEmbedsLoop provider fuel texts = runBatches provider (batchesOf 10 fuel texts) := by
  intro fuel
  induction fuel with
  | zero =>
    intro texts
    cases texts <;> simp [genEmbedsLoop, batchesOf, runBatches]
  | succ fuel ih =>
    intro texts
    cases texts with
    | nil => simp [genEmbedsLoop, batchesOf, runBatches]
    | cons t ts => simp only [genEmbedsLoop, batchesOf, runBatches, ih]

theorem batchesOf_join : ∀ (fuel : Nat) (l : List α), l.length ≤ fuel →
    (batchesOf 10 fuel l).flatten = l := by
  intro fuel
  induction fuel with
  | zero =>
    intro l hl
    cases l with
    | nil => simp [batchesOf]
    | cons a t => simp at hl
  | succ fuel ih =>
    intro l hl
    cases l with
    | nil => simp [batchesOf]
    | cons a t =>
      simp only [batchesOf, List.flatten_cons]
      rw [ih ((a :: t).drop 10) (by simp at hl ⊢; omega)]
      exact List.take_append_drop 10 (a :: t)

theorem batchesOf_le : ∀ (fuel : Nat) (l : List α), ∀ b ∈ batchesOf 10 fuel l,
    b.length ≤ 10 := by
  intro fuel
  induction fuel with
  | zero =>
    intro l b hb
    cases l <;> simp [batchesOf] at hb
  | succ fuel ih =>
    intro l b hb
    cases l with
    | nil => simp [batchesOf] at hb
    | cons a t =>
      simp only [batchesOf, List.mem_cons] at hb
      rcases hb with rfl | hb
      · exact (List.length_take_le 10 (a :: t)).trans (le_refl 10)
      · exact ih _ b hb

theorem mapM_embed_ok (provider : String → Except ε (List ℚ)) :
    ∀ (b : List String), (∀ t ∈ b, (provider t).isOk = true) →
      (b.mapM fun text => do
          let embedding ← provider text
          pure ({ embedding := embedding, text := text } : EmbeddingResult)) =
        .ok (b.map fun t => ⟨exceptValue (provider t), t⟩) := by
  intro b
  induction b with
  | nil => intro _; rfl
  | cons t ts ih =>
    intro h
    have ht := h t (List.mem_cons_self t ts)
    cases hp : provider t with
    | error e => rw [hp] at ht; simp [Except.isOk, Except.toBool] at ht
    | ok v =>
      rw [List.mapM_cons, List.map_cons, ih fun x hx => h x (List.mem_cons_of_mem t hx)]
      simp only [hp]
      rfl

theorem mapM_embed_error (provider : String → Except ε (List ℚ)) :
    ∀ (b : List String), (∃ t ∈ b, ∃ e, provider t = .error e) →
      ∃ e, (b.mapM fun text => do
          let embedding ← provider text
          pure ({ embedding := embedding, text := text } : EmbeddingResult)) =
        .error e := by
  intro b
  induction b with
  | nil => rintro ⟨t, ht, _⟩; simp at ht
  | cons t ts ih =>
    rintro ⟨x, hx, e, he⟩
    rcases List.mem_cons.mp hx with rfl | hx'
    · refine ⟨e, ?_⟩
      rw [List.mapM_cons]
      simp only [he]
      rfl
    · cases hp : provider t with
      | error e' =>
        refine ⟨e', ?_⟩
        rw [List.mapM_cons]
        simp only [hp]
        rfl
      | ok v =>
        obtain ⟨e'', he''⟩ := ih ⟨x, hx', e, he⟩
        refine ⟨e'', ?_⟩
        rw [List.mapM_cons]
        simp only [hp, he'']
        rfl

theorem genEmbedsLoop_ok (provider : String → Except ε (List ℚ)) :
    ∀ (fuel : Nat) (texts : List String), texts.length ≤ fuel →
      (∀ t ∈ texts, (provider t).isOk = true) →
      genEmbedsLoop provider fuel texts =
        .ok (texts.map fun t => ⟨exceptValue (provider t), t⟩) := by
  intro fuel
  induction fuel with
  | zero =>
    intro texts hl _
    cases texts with
    | nil => rfl
    | cons a t => simp at hl
  | succ fuel ih =>
    intro texts hl hok
    cases texts with
    | nil => rfl
    | cons a ts =>
      have hbatch := mapM_embed_ok provider ((a :: ts).take 10)
        (fun t ht => hok t (List.mem_of_mem_take ht))
      have hrest := ih ((a :: ts).drop 10) (by simp at hl ⊢; omega)
        (fun t ht => hok t (List.mem_of_mem_drop ht))
      calc genEmbedsLoop provider (fuel + 1) (a :: ts)
          = .ok ((((a :: ts).take 10).map fun t => ⟨exceptValue (provider t), t⟩) ++
              (((a :: ts).drop 10).map fun t => ⟨exceptValue (provider t), t⟩)) := by
            rw [genEmbedsLoop, hbatch, hrest]
            · rfl
            · simp
        _ = .ok ((a :: ts).map fun t => ⟨exceptValue (provider t), t⟩) := by
            rw [← List.map_append, List.take_append_drop]

theorem genEmbedsLoop_error (provider : String → Except ε (List ℚ)) :
    ∀ (fuel : Nat) (texts : List String), texts.length ≤ fuel →
      (∃ t ∈ texts, ∃ e, provider t = .error e) →
      ∃ e, genEmbedsLoop provider fuel texts = .error e := by
  intro fuel
  induction fuel with
  | zero =>
    intro texts hl hbad
    cases texts with
    | nil => obtain ⟨t, ht, _⟩ := hbad; simp at ht
    | cons a t => simp at hl
  | succ fuel ih =>
    intro texts hl hbad
    cases texts with
    | nil => obtain ⟨t, ht, _⟩ := hbad; simp at ht
    | cons a ts =>
      by_cases hfirst : ∃ t ∈ (a :: ts).take 10, ∃ e, provider t = .error e
      · obtain ⟨e, he⟩ := mapM_embed_error provider _ hfirst
        refine ⟨e, ?_⟩
        rw [genEmbedsLoop, he]
        · rfl
        · simp
      · obtain ⟨x, hx, e, he⟩ := hbad
        have hx' : x ∈ (a :: ts).drop 10 := by
          have hsplit : x ∈ (a :: ts).take 10 ++ (a :: ts).drop 10 := by
            rw [List.take_append_drop]
            exact hx
          rcases List.mem_append.mp hsplit with h | h
          · exact absurd ⟨x, h, e, he⟩ hfirst
          · exact h
        have hok : ∀ t ∈ (a :: ts).take 10, (provider t).isOk = true := by
          intro t ht
          cases hp : provider t with
          | error e' => exact absurd ⟨t, ht, e', hp⟩ hfirst
          | ok v => rfl
        obtain ⟨e', he'⟩ := ih ((a :: ts).drop 10) (by simp at hl ⊢; omega) ⟨x, hx', e, he⟩
        refine ⟨e', ?_⟩
        rw [genEmbedsLoop, mapM_embed_ok provider _ hok, he']
        · rfl
        · simp

/-- Claim C10: when every provider call succeeds, `generateEmbeddings`
returns one result per input text, in input order, pairing each text with
its provider embedding; the texts are processed as the consecutive
batches of at most 10 given by `batchesOf`; and any single failing
provider call makes the whole call reject. -/
theorem c10_generate_embeddings :
    ∀ (ε : Type) (provider : String → Except ε (List ℚ)) (texts : List String),
      ((∀ t ∈ texts, (provider t).isOk = true) →
        generateEmbeddings provider texts =
          .ok (texts.map fun t => ⟨exceptValue (provider t), t⟩)) ∧
      (generateEmbeddings provider texts
          = runBatches provider (batchesOf 10 texts.length texts) ∧
        (batchesOf 10 texts.length texts).flatten = texts ∧
        ∀ b ∈ batchesOf 10 texts.length texts, b.length ≤ 10) ∧
      ((∃ t ∈ texts, ∃ e, provider t = .error e) →
        ∃ e, generateEmbeddings provider texts = .error e) := by
  intro ε provider texts
  refine ⟨fun hok => genEmbedsLoop_ok provider texts.length texts (le_refl _) hok,
    ⟨genEmbedsLoop_eq_runBatches provider texts.length texts,
     batchesOf_join texts.length texts (le_refl _),
     batchesOf_le texts.length texts⟩,
    fun hbad => genEmbedsLoop_error provider texts.length texts (le_refl _) hbad⟩

/-- Witness for C10: a provider that always succeeds on two texts, and one
that fails on the second text. -/
theorem c10_witness :
    generateEmbeddings okProvider ["a", "b"] =
        .ok [⟨[1], "a"⟩, ⟨[1], "b"⟩] ∧
    ∃ e, generateEmbeddings failProvider ["a", "b"] = .error e := by
  constructor
  · have h := (c10_generate_embeddings Unit okProvider ["a", "b"]).1 (by decide)
    exact h.trans rfl
  · exact (c10_generate_embeddings Unit failProvider ["a", "b"]).2.2
      ⟨"b", by decide, (), rfl⟩

/-! ### Claim C8: formatContext -/

theorem mem_firstOccurrences [DecidableEq α] :
    ∀ (l : List α) (a : α), a ∈ firstOccurrences l ↔ a ∈ l := by
  intro l
  induction l using firstOccurrences.induct with
  | case1 => intro a; simp [firstOccurrences]
  | case2 b t ih =>
    intro a
    rw [firstOccurrences]
    by_cases h : a = b
    · subst h; simp
    · simp only [List.mem_cons, ih a, List.mem_filter]
      constructor
      · rintro (rfl | ⟨ha, _⟩)
        · exact absurd rfl h
        · exact Or.inr ha
      · rintro (rfl | ha)
        · exact absurd rfl h
        · exact Or.inr ⟨ha, by simp [h]⟩

theorem nodup_firstOccurrences [DecidableEq α] :
    ∀ l : List α, (firstOccurrences l).Nodup := by
  intro l
  induction l using firstOccurrences.induct with
  | case1 => simp [firstOccurrences]
  | case2 b t ih =>
    rw [firstOccurrences]
    refine List.nodup_cons.mpr ⟨?_, ih⟩
    intro hb
    have := (mem_firstOccurrences _ b).mp hb
    simp at this

theorem groupChunksLoop_get_some :
    ∀ (l : List SearchResult) (acc : List (String × List SearchResult))
      (p : String) (g : List SearchResult), mapGet acc p = some g →
      mapGet (groupChunksLoop l acc) p =
        some (g ++ l.filter fun c => c.metadata.filePath = p) := by
  intro l
  induction l with
  | nil => intro acc p g h; simpa [groupChunksLoop] using h
  | cons c rest ih =>
    intro acc p g h
    by_cases hp : c.metadata.filePath = p
    · have hacc : mapGet acc c.metadata.filePath = some g := by rw [hp]; exact h
      rw [groupChunksLoop, hacc]
      rw [ih _ p (g ++ [c]) (by rw [← hp]; exact mapGet_set_self acc _ _)]
      simp [hp]
    · have hset : ∀ v, mapGet (mapSet acc c.metadata.filePath v) p = some g := by
        intro v
        rw [mapGet_set_ne acc _ p v fun hh => hp hh.symm]
        exact h
      cases hacc : mapGet acc c.metadata.filePath with
      | none => rw [groupChunksLoop, hacc, ih _ p g (hset _)]; simp [hp]
      | some g0 => rw [groupChunksLoop, hacc, ih _ p g (hset _)]; simp [hp]

theorem groupChunksLoop_get_none :
    ∀ (l : List SearchResult) (acc : List (String × List SearchResult))
      (p : String), mapGet acc p = none →
      mapGet (groupChunksLoop l acc) p =
        if p ∈ l.map (fun c => c.metadata.filePath) then
          some (l.filter fun c => c.metadata.filePath = p)
        else none := by
  intro l
  induction l with
  | nil => intro acc p h; simpa [groupChunksLoop] using h
  | cons c rest ih =>
    intro acc p h
    by_cases hp : c.metadata.filePath = p
    · cases hacc : mapGet acc c.metadata.filePath with
      | none =>
        rw [groupChunksLoop, hacc,
          groupChunksLoop_get_some rest _ p [c] (by rw [← hp]; exact mapGet_set_self acc _ _)]
        simp [hp]
      | some g0 =>
        rw [hp] at hacc
        rw [h] at hacc
        cases hacc
    · have hset : ∀ v, mapGet (mapSet acc c.metadata.filePath v) p = none := by
        intro v
        rw [mapGet_set_ne acc _ p v fun hh => hp hh.symm]
        exact h
      have hp' : ¬ p = c.metadata.filePath := fun hh => hp hh.symm
      cases hacc : mapGet acc c.metadata.filePath with
      | none =>
        rw [groupChunksLoop, hacc, ih _ p (hset _)]
        simp [hp, hp']
      | some g0 =>
        rw [groupChunksLoop, hacc, ih _ p (hset _)]
        simp [hp, hp']

theorem groupChunksLoop_keys :
    ∀ (l : List SearchResult) (acc : List (String × List SearchResult)),
      (groupChunksLoop l acc).map Prod.fst =
        acc.map Prod.fst ++
          firstOccurrences ((l.map fun c => c.metadata.filePath).filter
            fun p => !(mapHas acc p)) := by
  intro l
  induction l with
  | nil => intro acc; simp [groupChunksLoop, firstOccurrences]
  | cons c rest ih =>
    intro acc
    cases hacc : mapGet acc c.metadata.filePath with
    | none =>
      have hhas : mapHas acc c.metadata.filePath = false := by simp [mapHas, hacc]
      have hfilter :
          (rest.map fun x => x.metadata.filePath).filter
              (fun p => !(mapHas (mapSet acc c.metadata.filePath [c]) p)) =
            ((rest.map fun x => x.metadata.filePath).filter fun p => !(mapHas acc p)).filter
              (· ≠ c.metadata.filePath) := by
        rw [List.filter_filter]
        apply List.filter_congr
        intro p _
        by_cases hpc : p = c.metadata.filePath
        · subst hpc
          simp [mapHas, mapGet_set_self]
        · simp [mapHas, mapGet_set_ne acc _ p _ hpc, hpc]
      have hcons :
          ((c :: rest).map fun x => x.metadata.filePath).filter (fun p => !(mapHas acc p)) =
            c.metadata.filePath ::
              ((rest.map fun x => x.metadata.filePath).filter fun p => !(mapHas acc p)) := by
        simp [hhas]
      rw [groupChunksLoop, hacc, ih, keys_mapSet_of_get_none acc _ _ hacc, hcons,
        firstOccurrences, ← hfilter]
      simp
    | some g0 =>
      have hhas : mapHas acc c.metadata.filePath = true := by simp [mapHas, hacc]
      have hfilter :
          (rest.map fun x => x.metadata.filePath).filter
              (fun p => !(mapHas (mapSet acc c.metadata.filePath (g0 ++ [c])) p)) =
            (rest.map fun x => x.metadata.filePath).filter fun p => !(mapHas acc p) := by
        apply List.filter_congr
        intro p _
        by_cases hpc : p = c.metadata.filePath
        · subst hpc
          simp [mapHas, mapGet_set_self, hacc]
        · simp [mapHas, mapGet_set_ne acc _ p _ hpc]
      have hcons :
          ((c :: rest).map fun x => x.metadata.filePath).filter (fun p => !(mapHas acc p)) =
            (rest.map fun x => x.metadata.filePath).filter fun p => !(mapHas acc p) := by
        simp [hhas]
      rw [groupChunksLoop, hacc, ih, keys_mapSet_of_get_some acc _ _ (by simp [hacc]), hcons,
        hfilter]

theorem mapGet_eq_none_of_not_mem_keys (m : List (K × V)) (k : K)
    (h : k ∉ m.map Prod.fst) : mapGet m k = none := by
  cases hg : mapGet m k with
  | none => rfl
  | some v => exact absurd (mem_keys_of_mapGet_isSome m k (by simp [hg])) h

theorem assoc_ext :
    ∀ (l1 l2 : List (K × V)), l1.map Prod.fst = l2.map Prod.fst →
      (l1.map Prod.fst).Nodup → (∀ p, mapGet l1 p = mapGet l2 p) → l1 = l2 := by
  intro l1
  induction l1 with
  | nil =>
    intro l2 hk _ _
    cases l2 with
    | nil => rfl
    | cons kv t => simp at hk
  | cons kv t1 ih =>
    obtain ⟨k, v⟩ := kv
    intro l2 hk hnd hget
    cases l2 with
    | nil => simp at hk
    | cons kv2 t2 =>
      obtain ⟨k2, v2⟩ := kv2
      simp only [List.map_cons, List.cons.injEq] at hk
      obtain ⟨hkk, hkt⟩ := hk
      subst hkk
      have hv : some v = some v2 := by
        have := hget k
        simpa [mapGet] using this
      rw [List.map_cons, List.nodup_cons] at hnd
      have ht : t1 = t2 := by
        refine ih t2 hkt hnd.2 ?_
        intro p
        by_cases hpk : p = k
        · subst hpk
          rw [mapGet_eq_none_of_not_mem_keys t1 p hnd.1,
            mapGet_eq_none_of_not_mem_keys t2 p (by rw [← hkt]; exact hnd.1)]
        · have hkp : ¬ k = p := fun hh => hpk hh.symm
          have := hget p
          simpa [mapGet, hkp] using this
      rw [ht]
      have hvv : v = v2 := by injection hv
      rw [hvv]

theorem mapGet_tabulate (f : K → V) :
    ∀ (ks : List K) (q : K),
      mapGet (ks.map fun p => (p, f p)) q = if q ∈ ks then some (f q) else none := by
  intro ks
  induction ks with
  | nil => intro q; simp [mapGet]
  | cons k rest ih =>
    intro q
    by_cases h : k = q
    · subst h; simp [mapGet]
    · have h' : ¬ q = k := fun hh => h hh.symm
      simp [mapGet, h, h', ih q]

theorem chunksByFile_eq (chunks : List SearchResult) :
    chunksByFile chunks =
      (firstOccurrences (chunks.map fun c => c.metadata.filePath)).map
        fun p => (p, chunks.filter fun c => c.metadata.filePath = p) := by
  have hkeys : (chunksByFile chunks).map Prod.fst =
      firstOccurrences (chunks.map fun c => c.metadata.filePath) := by
    rw [chunksByFile, groupChunksLoop_keys]
    simp [mapHas, mapGet]
  refine assoc_ext _ _ ?_ ?_ ?_
  · rw [hkeys, List.map_map]
    have hid : (Prod.fst ∘ fun p => (p, chunks.filter fun c => c.metadata.filePath = p)) =
        fun p : String => p := rfl
    rw [hid]
    simp
  · rw [hkeys]
    exact nodup_firstOccurrences _
  · intro p
    rw [chunksByFile, groupChunksLoop_get_none chunks [] p rfl, mapGet_tabulate]
    by_cases hp : p ∈ chunks.map fun c => c.metadata.filePath
    · rw [if_pos hp, if_pos ((mem_firstOccurrences _ p).mpr hp)]
    · rw [if_neg hp, if_neg fun hh => hp ((mem_firstOccurrences _ p).mp hh)]

/-- Claim C8: `formatContext` returns `""` on the empty list, and in
general groups the chunks by source file path (first-encounter order),
sorts each group ascending by `chunkIndex` (the stable sort of a group is
an ascending permutation of it), and emits one block per file —
i.e. it coincides with the reference formatter `specFormatContext`. -/
theorem c8_format_context :
    formatContext [] = "" ∧
    (∀ chunks : List SearchResult, formatContext chunks = specFormatContext chunks) ∧
    ∀ l : List SearchResult,
      (jsSortBy leChunkIdx l).Perm l ∧
      (jsSortBy leChunkIdx l).Pairwise
        fun a b => a.metadata.chunkIndex ≤ b.metadata.chunkIndex := by
  refine ⟨rfl, ?_, ?_⟩
  · intro chunks
    rw [formatContext, specFormatContext, chunksByFile_eq]
  · intro l
    refine ⟨jsSortBy_perm _ l, pairwise_jsSortBy _ _ ?_ ?_ ?_ l⟩
    · intro a b h
      simpa [leChunkIdx] using h
    · intro a b
      simp only [leChunkIdx, decide_eq_true_eq]
      exact Nat.le_total _ _
    · intro a b c hab hbc
      exact le_trans hab hbc

/-! ### Claims C2 and C4: indexFile -/

/-- Every error path of `indexFile` (not-initialized guard, embedding
failure) returns before any mutation: the state is unchanged. -/
theorem indexFile_error_state :
    ∀ (ε : Type) (provider : String → Except ε (List ℚ)) (sqrtFn : ℚ → ℚ)
      (chunkSize chunkOverlap : Nat) (st : RAGState)
      (filePath basename content : String) (mtime : Int) (err : IndexError ε),
      (indexFile provider sqrtFn chunkSize chunkOverlap st filePath basename content mtime).2.2
          = some err →
      (indexFile provider sqrtFn chunkSize chunkOverlap st filePath basename content mtime).1
          = st := by
  intro ε provider sqrtFn cs ov st fp bn content mtime err h
  by_cases h1 : st.isInitialized = false
  · simp [indexFile, h1]
  · by_cases h2 : mapGet st.contentHashes fp = some (hashContent content)
    · simp [indexFile, h1, h2] at h
    · by_cases h3 : (jsTrim content).length = 0
      · simp [indexFile, h1, h2, h3] at h
      · cases hproc : processDocument provider cs ov content fp bn with
        | error e => simp [indexFile, h1, h2, h3, hproc]
        | ok res =>
          obtain ⟨chunks, embeddings⟩ := res
          by_cases h4 : chunks.length = 0
          · simp [indexFile, h1, h2, h3, hproc, h4] at h
          · simp [indexFile, h1, h2, h3, hproc, h4] at h

/-- Claim C2: if `indexFile` propagates an error, the whole RAG state —
in particular the vector store, hence the chunk ids and stored chunks of
every path — is exactly what it was before the attempt; old chunks are
deleted and new ones inserted only on the all-embeddings-succeeded path. -/
theorem c2_error_atomicity :
    ∀ (ε : Type) (provider : String → Except ε (List ℚ)) (sqrtFn : ℚ → ℚ)
      (chunkSize chunkOverlap : Nat) (st : RAGState)
      (filePath basename content : String) (mtime : Int) (err : IndexError ε),
      (indexFile provider sqrtFn chunkSize chunkOverlap st filePath basename content mtime).2.2
          = some err →
      (indexFile provider sqrtFn chunkSize chunkOverlap st filePath basename content mtime).1
            = st ∧
        (∀ p, getDocumentIdsByPath
            (indexFile provider sqrtFn chunkSize chunkOverlap st filePath basename content
              mtime).1.store p = getDocumentIdsByPath st.store p) ∧
        (∀ i, mapGet (indexFile provider sqrtFn chunkSize chunkOverlap st filePath basename
            content mtime).1.store.documents i = mapGet st.store.documents i) ∧
        getCount (indexFile provider sqrtFn chunkSize chunkOverlap st filePath basename content
            mtime).1.store = getCount st.store := by
  intro ε provider sqrtFn cs ov st fp bn content mtime err h
  have heq := indexFile_error_state ε provider sqrtFn cs ov st fp bn content mtime err h
  rw [heq]
  exact ⟨rfl, fun _ => rfl, fun _ => rfl, rfl⟩

theorem c2_witness :
    (indexFile alwaysFailProvider (fun _ => 1) 512 50 c2State "n.md" "n" "hello" 0).2.2
        = some (.embedding ()) ∧
    (indexFile alwaysFailProvider (fun _ => 1) 512 50 c2State "n.md" "n" "hello" 0).1 = c2State := by
  have herr : (indexFile alwaysFailProvider (fun _ => 1) 512 50 c2State "n.md" "n" "hello" 0).2.2
      = some (.embedding ()) := by decide
  exact ⟨herr,
    (c2_error_atomicity Unit alwaysFailProvider (fun _ => 1) 512 50 c2State "n.md" "n" "hello" 0
      (.embedding ()) herr).1⟩

/-- The hash-skip path of `indexFile`: when the recorded hash matches, the
call returns immediately — unchanged state, no provider request. -/
theorem indexFile_skip :
    ∀ (ε : Type) (provider : String → Except ε (List ℚ)) (sqrtFn : ℚ → ℚ)
      (chunkSize chunkOverlap : Nat) (st : RAGState)
      (filePath basename content : String) (mtime : Int),
      st.isInitialized = true →
      mapGet st.contentHashes filePath = some (hashContent content) →
      indexFile provider sqrtFn chunkSize chunkOverlap st filePath basename content mtime
        = (st, [], none) := by
  intro ε provider sqrtFn cs ov st fp bn content mtime hinit hhash
  simp [indexFile, hinit, hhash]

/-- After any error-free `indexFile` call the content hash of the path is
recorded and the initialization flag is unchanged. -/
theorem indexFile_records_hash :
    ∀ (ε : Type) (provider : String → Except ε (List ℚ)) (sqrtFn : ℚ → ℚ)
      (chunkSize chunkOverlap : Nat) (st : RAGState)
      (filePath basename content : String) (mtime : Int),
      st.isInitialized = true →
      (indexFile provider sqrtFn chunkSize chunkOverlap st filePath basename content mtime).2.2
          = none →
      mapGet (indexFile provider sqrtFn chunkSize chunkOverlap st filePath basename content
          mtime).1.contentHashes filePath = some (hashContent content) ∧
      (indexFile provider sqrtFn chunkSize chunkOverlap st filePath basename content
          mtime).1.isInitialized = true := by
  intro ε provider sqrtFn cs ov st fp bn content mtime hinit h
  have h1 : ¬ st.isInitialized = false := by simp [hinit]
  by_cases h2 : mapGet st.contentHashes fp = some (hashContent content)
  · simp [indexFile, h1, h2, hinit]
  · by_cases h3 : (jsTrim content).length = 0
    · simp [indexFile, h1, h2, h3, hinit, mapGet_set_self]
    · cases hproc : processDocument provider cs ov content fp bn with
      | error e => simp [indexFile, h1, h2, h3, hproc] at h
      | ok res =>
        obtain ⟨chunks, embeddings⟩ := res
        by_cases h4 : chunks.length = 0
        · simp [indexFile, h1, h2, h3, hproc, h4, hinit, mapGet_set_self]
        · simp [indexFile, h1, h2, h3, hproc, h4, hinit, mapGet_set_self]

/-- Claim C4: a matching recorded hash makes `indexFile` a complete no-op
(unchanged state, no provider requests, no error), and after a successful
`indexFile` a second call with the same content is such a no-op — one
round of embedding requests in total and identical stored chunks. -/
theorem c4_idempotent_reindex :
    ∀ (ε : Type) (provider : String → Except ε (List ℚ)) (sqrtFn : ℚ → ℚ)
      (chunkSize chunkOverlap : Nat) (st : RAGState)
      (filePath basename content : String) (mtime : Int),
      st.isInitialized = true →
      (mapGet st.contentHashes filePath = some (hashContent content) →
        indexFile provider sqrtFn chunkSize chunkOverlap st filePath basename content mtime
          = (st, [], none)) ∧
      (∀ (st1 : RAGState) (log1 : List String) (mtime1 : Int),
        indexFile provider sqrtFn chunkSize chunkOverlap st filePath basename content mtime
            = (st1, log1, none) →
        indexFile provider sqrtFn chunkSize chunkOverlap st1 filePath basename content mtime1
          = (st1, [], none)) := by
  intro ε provider sqrtFn cs ov st fp bn content mtime hinit
  constructor
  · intro hhash
    exact indexFile_skip ε provider sqrtFn cs ov st fp bn content mtime hinit hhash
  · intro st1 log1 mtime1 hrun
    have hnone : (indexFile provider sqrtFn cs ov st fp bn content mtime).2.2 = none := by
      rw [hrun]
    have hrec := indexFile_records_hash ε provider sqrtFn cs ov st fp bn content mtime hinit hnone
    rw [hrun] at hrec
    exact indexFile_skip ε provider sqrtFn cs ov st1 fp bn content mtime1 hrec.2 hrec.1

theorem c4_witness :
    mapGet
        (indexFile emptyEmbedProvider (fun _ => 1) 512 50 c4State "n.md" "n" "hello world"
          0).1.contentHashes "n.md" = some (hashContent "hello world") ∧
    indexFile emptyEmbedProvider (fun _ => 1) 512 50
        (indexFile emptyEmbedProvider (fun _ => 1) 512 50 c4State "n.md" "n" "hello world" 0).1
        "n.md" "n" "hello world" 7
      = ((indexFile emptyEmbedProvider (fun _ => 1) 512 50 c4State "n.md" "n" "hello world"
          0).1, [], none) := by
  have hrun : indexFile emptyEmbedProvider (fun _ => 1) 512 50 c4State "n.md" "n" "hello world" 0
      = ((indexFile emptyEmbedProvider (fun _ => 1) 512 50 c4State "n.md" "n" "hello world"
          0).1, (indexFile emptyEmbedProvider (fun _ => 1) 512 50 c4State "n.md" "n"
          "hello world" 0).2.1, none) := by decide
  constructor
  · exact ((indexFile_records_hash Unit emptyEmbedProvider (fun _ => 1) 512 50 c4State "n.md" "n"
      "hello world" 0 rfl (by rw [hrun])).1)
  · exact (c4_idempotent_reindex Unit emptyEmbedProvider (fun _ => 1) 512 50 c4State "n.md" "n"
      "hello world" 0 rfl).2 _ _ 7 hrun

/-! ### Claim C3: path-index consistency -/

theorem mem_setAdd (s : List K) (k i : K) :
    i ∈ setAdd s k ↔ i ∈ s ∨ i = k := by
  by_cases h : k ∈ s
  · simp only [setAdd, if_pos h]
    constructor
    · exact Or.inl
    · rintro (hi | rfl)
      · exact hi
      · exact h
  · simp [setAdd, if_neg h]

theorem setAdd_ne_nil (s : List K) (k : K) : setAdd s k ≠ [] := by
  by_cases h : k ∈ s
  · simp only [setAdd, if_pos h]
    intro hnil
    rw [hnil] at h
    simp at h
  · simp [setAdd, if_neg h]

theorem nodup_setAdd (s : List K) (k : K) (h : s.Nodup) :
    (setAdd s k).Nodup := by
  by_cases hk : k ∈ s
  · simpa [setAdd, if_pos hk] using h
  · simp only [setAdd, if_neg hk]
    exact List.Nodup.append h (List.nodup_singleton k) (by
      intro a ha hb
      simp only [List.mem_singleton] at hb
      subst hb
      exact hk ha)

theorem addToIndex_documents (sqrtFn : ℚ → ℚ) (st : VectorStore) (d : VectorDocument) :
    (addToIndex sqrtFn st d).documents =
      mapSet st.documents d.id ⟨d, d.embedding, computeNorm sqrtFn d.embedding⟩ := rfl

theorem addToIndex_pathIndex (sqrtFn : ℚ → ℚ) (st : VectorStore) (d : VectorDocument) :
    (addToIndex sqrtFn st d).pathIndex =
      mapSet st.pathIndex d.metadata.filePath
        (setAdd ((mapGet st.pathIndex d.metadata.filePath).getD []) d.id) := by
  simp only [addToIndex]
  cases h : mapGet st.pathIndex d.metadata.filePath <;> simp [h, setAdd]

theorem addToIndex_inv (sqrtFn : ℚ → ℚ) (st : VectorStore) (d : VectorDocument)
    (hinv : StoreInv st)
    (hok : ∀ e, mapGet st.documents d.id = some e →
      e.doc.metadata.filePath = d.metadata.filePath) :
    StoreInv (addToIndex sqrtFn st d) := by
  obtain ⟨hnd1, hnd2, hc, hd⟩ := hinv
  have hdocs := addToIndex_documents sqrtFn st d
  have hpidx := addToIndex_pathIndex sqrtFn st d
  have hb0nd : ((mapGet st.pathIndex d.metadata.filePath).getD []).Nodup := by
    cases hb : mapGet st.pathIndex d.metadata.filePath with
    | none => simp
    | some s0 => simpa using (hc _ s0 hb).2.1
  refine ⟨?_, ?_, ?_, ?_⟩
  · rw [hdocs]
    exact nodupKeys_mapSet _ _ _ hnd1
  · rw [hpidx]
    exact nodupKeys_mapSet _ _ _ hnd2
  · intro p s hs
    rw [hpidx] at hs
    by_cases hp : p = d.metadata.filePath
    · subst hp
      rw [mapGet_set_self] at hs
      cases hs
      refine ⟨setAdd_ne_nil _ _, nodup_setAdd _ _ hb0nd, ?_⟩
      intro i hi
      rcases (mem_setAdd _ _ _).mp hi with hib | rfl
      · cases hb : mapGet st.pathIndex d.metadata.filePath with
        | none => rw [hb] at hib; simp at hib
        | some s0 =>
          rw [hb] at hib
          simp only [Option.getD_some] at hib
          obtain ⟨e, hge, hpe⟩ := (hc _ s0 hb).2.2 i hib
          by_cases hid : i = d.id
          · subst hid
            refine ⟨⟨d, d.embedding, computeNorm sqrtFn d.embedding⟩, ?_, ?_⟩
            · rw [hdocs]; exact mapGet_set_self _ _ _
            · exact (hok e hge) ▸ hpe
          · exact ⟨e, by rw [hdocs, mapGet_set_ne _ _ _ _ hid]; exact hge, hpe⟩
      · refine ⟨⟨d, d.embedding, computeNorm sqrtFn d.embedding⟩, ?_, rfl⟩
        rw [hdocs]
        exact mapGet_set_self _ _ _
    · rw [mapGet_set_ne _ _ _ _ hp] at hs
      obtain ⟨hne, hnd, hmem⟩ := hc p s hs
      refine ⟨hne, hnd, ?_⟩
      intro i hi
      obtain ⟨e, hge, hpe⟩ := hmem i hi
      have hid : i ≠ d.id := by
        intro hid
        subst hid
        exact hp (hpe.symm.trans (hok e hge))
      exact ⟨e, by rw [hdocs, mapGet_set_ne _ _ _ _ hid]; exact hge, hpe⟩
  · intro i e hie
    rw [hdocs] at hie
    by_cases hid : i = d.id
    · subst hid
      rw [mapGet_set_self] at hie
      cases hie
      refine ⟨setAdd ((mapGet st.pathIndex d.metadata.filePath).getD []) d.id, ?_, ?_⟩
      · rw [hpidx]
        exact mapGet_set_self _ _ _
      · exact (mem_setAdd _ _ _).mpr (Or.inr rfl)
    · rw [mapGet_set_ne _ _ _ _ hid] at hie
      obtain ⟨s1, hs1, hi1⟩ := hd i e hie
      by_cases hpe : e.doc.metadata.filePath = d.metadata.filePath
      · refine ⟨setAdd ((mapGet st.pathIndex d.metadata.filePath).getD []) d.id, ?_, ?_⟩
        · rw [hpidx, hpe]
          exact mapGet_set_self _ _ _
        · rw [hpe] at hs1
          rw [hs1]
          simp only [Option.getD_some]
          exact (mem_setAdd _ _ _).mpr (Or.inl hi1)
      · exact ⟨s1, by rw [hpidx, mapGet_set_ne _ _ _ _ hpe]; exact hs1, hi1⟩

theorem removeFromIndex_get_self (st : VectorStore) (id : String)
    (hnd : (st.documents.map Prod.fst).Nodup) :
    mapGet (removeFromIndex st id).documents id = none := by
  cases hgi : mapGet st.documents id with
  | none => simp only [removeFromIndex, hgi]
  | some indexed =>
    simp only [removeFromIndex, hgi]
    exact mapGet_delete_self _ _ hnd

theorem removeFromIndex_inv (st : VectorStore) (id : String) (hinv : StoreInv st) :
    StoreInv (removeFromIndex st id) := by
  obtain ⟨hnd1, hnd2, hc, hd⟩ := hinv
  cases hgi : mapGet st.documents id with
  | none =>
    simp only [removeFromIndex, hgi]
    exact ⟨hnd1, hnd2, hc, hd⟩
  | some indexed =>
    obtain ⟨s0, hs0, hmem0⟩ := hd id indexed hgi
    have hOnly : ∀ p s, mapGet st.pathIndex p = some s → id ∈ s →
        p = indexed.doc.metadata.filePath := by
      intro p s hps hid
      obtain ⟨e, hge, hpe⟩ := (hc p s hps).2.2 id hid
      rw [hgi] at hge
      cases hge
      exact hpe.symm
    have hs0nd := (hc _ s0 hs0).2.1
    simp only [removeFromIndex, hgi, hs0]
    by_cases hlen : (setDelete s0 id).length = 0
    · have hs0eq : s0 = [id] := by
        have hperm := List.perm_cons_erase hmem0
        have herase : s0.erase id = [] := List.length_eq_zero.mp (by simpa [setDelete] using hlen)
        rw [herase] at hperm
        exact List.perm_singleton.mp hperm
      simp only [hlen, if_true]
      refine ⟨nodupKeys_mapDelete _ _ hnd1, nodupKeys_mapDelete _ _ hnd2, ?_, ?_⟩
      · intro p s hps
        by_cases hp : p = indexed.doc.metadata.filePath
        · rw [hp, mapGet_delete_self _ _ hnd2] at hps
          cases hps
        · rw [mapGet_delete_ne _ _ _ (hp)] at hps
          obtain ⟨hne, hnd, hmem⟩ := hc p s hps
          refine ⟨hne, hnd, ?_⟩
          intro i hi
          obtain ⟨e, hge, hpe⟩ := hmem i hi
          have hiid : i ≠ id := by
            intro hiid
            subst hiid
            exact hp (hOnly p s hps hi)
          exact ⟨e, by rw [mapGet_delete_ne _ _ _ hiid]; exact hge, hpe⟩
      · intro i e hie
        by_cases hiid : i = id
        · rw [hiid, mapGet_delete_self _ _ hnd1] at hie
          cases hie
        · rw [mapGet_delete_ne _ _ _ hiid] at hie
          obtain ⟨s1, hs1, hi1⟩ := hd i e hie
          have hpe : e.doc.metadata.filePath ≠ indexed.doc.metadata.filePath := by
            intro hpe
            rw [hpe, hs0] at hs1
            cases hs1
            rw [hs0eq] at hi1
            simp at hi1
            exact hiid hi1
          exact ⟨s1, by rw [mapGet_delete_ne _ _ _ hpe]; exact hs1, hi1⟩
    · simp only [hlen, if_false]
      refine ⟨nodupKeys_mapDelete _ _ hnd1, nodupKeys_mapSet _ _ _ hnd2, ?_, ?_⟩
      · intro p s hps
        by_cases hp : p = indexed.doc.metadata.filePath
        · subst hp
          rw [mapGet_set_self] at hps
          cases hps
          refine ⟨fun hnil => hlen (by rw [hnil]; rfl), List.Nodup.erase id hs0nd, ?_⟩
          intro i hi
          have hi' := (List.Nodup.mem_erase_iff hs0nd).mp hi
          obtain ⟨e, hge, hpe⟩ := (hc _ s0 hs0).2.2 i hi'.2
          exact ⟨e, by rw [mapGet_delete_ne _ _ _ hi'.1]; exact hge, hpe⟩
        · rw [mapGet_set_ne _ _ _ _ hp] at hps
          obtain ⟨hne, hnd, hmem⟩ := hc p s hps
          refine ⟨hne, hnd, ?_⟩
          intro i hi
          obtain ⟨e, hge, hpe⟩ := hmem i hi
          have hiid : i ≠ id := by
            intro hiid
            subst hiid
            exact hp (hOnly p s hps hi)
          exact ⟨e, by rw [mapGet_delete_ne _ _ _ hiid]; exact hge, hpe⟩
      · intro i e hie
        by_cases hiid : i = id
        · rw [hiid, mapGet_delete_self _ _ hnd1] at hie
          cases hie
        · rw [mapGet_delete_ne _ _ _ hiid] at hie
          obtain ⟨s1, hs1, hi1⟩ := hd i e hie
          by_cases hpe : e.doc.metadata.filePath = indexed.doc.metadata.filePath
          · refine ⟨setDelete s0 id, by rw [hpe, mapGet_set_self], ?_⟩
            rw [hpe, hs0] at hs1
            cases hs1
            exact (List.Nodup.mem_erase_iff hs0nd).mpr ⟨hiid, hi1⟩
          · exact ⟨s1, by rw [mapGet_set_ne _ _ _ _ hpe]; exact hs1, hi1⟩

theorem saveToDisk_inv (st : VectorStore) : StoreInv (saveToDisk st) ↔ StoreInv st :=
  Iff.rfl

theorem foldAdd_inv (sqrtFn : ℚ → ℚ) :
    ∀ (docs : List VectorDocument) (st : VectorStore), StoreInv st →
      (∀ d ∈ docs, ∀ e, mapGet st.documents d.id = some e →
        e.doc.metadata.filePath = d.metadata.filePath) →
      (docs.Pairwise fun d1 d2 => d1.id = d2.id → d1.metadata.filePath = d2.metadata.filePath) →
      StoreInv (docs.foldl (addToIndex sqrtFn) st) := by
  intro docs
  induction docs with
  | nil => intro st h _ _; exact h
  | cons d rest ih =>
    intro st hinv hok hpw
    rw [List.foldl_cons]
    rcases List.pairwise_cons.mp hpw with ⟨hdrest, hpwrest⟩
    refine ih _ (addToIndex_inv sqrtFn st d hinv (hok d (List.mem_cons_self d rest))) ?_ hpwrest
    intro x hx e he
    rw [addToIndex_documents] at he
    by_cases hxd : x.id = d.id
    · rw [hxd, mapGet_set_self] at he
      cases he
      exact hdrest x hx hxd.symm
    · rw [mapGet_set_ne _ _ _ _ hxd] at he
      exact hok x (List.mem_cons_of_mem d hx) e he

theorem addDocuments_inv (sqrtFn : ℚ → ℚ) (st : VectorStore) (docs : List VectorDocument)
    (hinv : StoreInv st) (hok : AddDocsOk st docs) :
    StoreInv (addDocuments sqrtFn st docs) := by
  by_cases h : docs.length = 0
  · simpa [addDocuments, h] using hinv
  · simp only [addDocuments, h, if_false]
    exact (saveToDisk_inv _).mpr (foldAdd_inv sqrtFn docs st hinv hok.1 hok.2)

theorem updateDocuments_inv (sqrtFn : ℚ → ℚ) (st : VectorStore) (docs : List VectorDocument)
    (hinv : StoreInv st) : StoreInv (updateDocuments sqrtFn st docs) := by
  by_cases h : docs.length = 0
  · simpa [updateDocuments, h] using hinv
  · simp only [updateDocuments, h, if_false]
    rw [saveToDisk_inv]
    clear h
    induction docs generalizing st with
    | nil => exact hinv
    | cons d rest ih =>
      rw [List.foldl_cons]
      refine ih _ ?_
      refine addToIndex_inv sqrtFn _ d (removeFromIndex_inv st d.id hinv) ?_
      intro e he
      rw [removeFromIndex_get_self st d.id hinv.1] at he
      cases he

theorem deleteDocumentsByPath_inv (st : VectorStore) (p : String) (hinv : StoreInv st) :
    StoreInv (deleteDocumentsByPath st p) := by
  cases hb : mapGet st.pathIndex p with
  | none => simpa [deleteDocumentsByPath, hb] using hinv
  | some ids =>
    by_cases h : ids.length = 0
    · simpa [deleteDocumentsByPath, hb, h] using hinv
    · simp only [deleteDocumentsByPath, hb, h, if_false]
      rw [saveToDisk_inv]
      clear hb h
      induction ids generalizing st with
      | nil => exact hinv
      | cons i rest ih =>
        rw [List.foldl_cons]
        exact ih _ (removeFromIndex_inv st i hinv)

theorem emptyStore_inv : StoreInv emptyStore := by
  refine ⟨by simp [emptyStore], by simp [emptyStore], ?_, ?_⟩
  · intro p s hps
    simp [emptyStore, mapGet] at hps
  · intro i e hie
    simp [emptyStore, mapGet] at hie

theorem reachable_inv (sqrtFn : ℚ → ℚ) (st : VectorStore) (h : Reachable sqrtFn st) :
    StoreInv st := by
  induction h with
  | refl => exact emptyStore_inv
  | tail _ hstep ih =>
    cases hstep with
    | add docs hok => exact addDocuments_inv sqrtFn _ docs ih hok
    | update docs => exact updateDocuments_inv sqrtFn _ docs ih
    | delete p => exact deleteDocumentsByPath_inv _ p ih

/-- Claim C3 is false as stated: re-adding an existing id under a
different file path (allowed by `addDocuments`, which never removes the
id from its old bucket) leaves the id in the old path's bucket while the
stored document's path is the new one — and in two buckets at once. -/
theorem c3_counterexample :
    (¬ ∀ p i, i ∈ getDocumentIdsByPath c3BadState p ↔
        ∃ e, mapGet c3BadState.documents i = some e ∧ e.doc.metadata.filePath = p) ∧
    getDocumentIdsByPath c3BadState "a.md" = ["x"] ∧
    getDocumentIdsByPath c3BadState "b.md" = ["x"] ∧
    (mapGet c3BadState.documents "x").map (fun e => e.doc.metadata.filePath)
      = some "b.md" := by
  refine ⟨?_, by decide, by decide, by decide⟩
  intro hclaim
  obtain ⟨e, hge, hpe⟩ := (hclaim "a.md" "x").mp (by decide)
  have hx : mapGet c3BadState.documents "x" = some ⟨c3DocB, [], 1⟩ := by decide
  rw [hx] at hge
  cases hge
  exact absurd hpe (by decide)

/-- Claim C3 (amended): for every state reachable from the empty store by
add/update/delete sequences in which no `addDocuments` call re-uses a
stored or in-batch id under a different file path (`AddDocsOk` — the
source's callers guarantee this because chunk ids embed the path),
`getDocumentIdsByPath P` returns exactly the ids of stored documents
whose `metadata.filePath` is `P`, every stored id lies in exactly one
path bucket, and no empty bucket survives (removing a path's last chunk
removes its bucket). -/
theorem c3_path_index_consistency :
    ∀ (sqrtFn : ℚ → ℚ) (st : VectorStore), Reachable sqrtFn st →
      (∀ p i, i ∈ getDocumentIdsByPath st p ↔
          ∃ e, mapGet st.documents i = some e ∧ e.doc.metadata.filePath = p) ∧
      (∀ i, (mapGet st.documents i).isSome = true →
          ∃! p, ∃ s, mapGet st.pathIndex p = some s ∧ i ∈ s) ∧
      (∀ p s, mapGet st.pathIndex p = some s → s ≠ []) := by
  intro sqrtFn st hr
  obtain ⟨hnd1, hnd2, hc, hd⟩ := reachable_inv sqrtFn st hr
  refine ⟨?_, ?_, ?_⟩
  · intro p i
    constructor
    · intro hi
      unfold getDocumentIdsByPath at hi
      cases hb : mapGet st.pathIndex p with
      | none => rw [hb] at hi; simp at hi
      | some s =>
        rw [hb] at hi
        simp only [Option.getD_some] at hi
        exact (hc p s hb).2.2 i hi
    · rintro ⟨e, hge, hpe⟩
      obtain ⟨s, hs, his⟩ := hd i e hge
      rw [hpe] at hs
      unfold getDocumentIdsByPath
      rw [hs]
      simpa using his
  · intro i hi
    rw [Option.isSome_iff_exists] at hi
    obtain ⟨e, he⟩ := hi
    obtain ⟨s, hs, his⟩ := hd i e he
    refine ⟨e.doc.metadata.filePath, ⟨s, hs, his⟩, ?_⟩
    rintro p ⟨s', hs', his'⟩
    obtain ⟨e', hge', hpe'⟩ := (hc p s' hs').2.2 i his'
    rw [he] at hge'
    cases hge'
    exact hpe'.symm
  · intro p s hs
    exact (hc p s hs).1

/-- Witness for C3 at the spec's own example scenario: two chunks for
"notes/a.md" and one for "notes/b.md" are added (a legal add), then
"notes/a.md" is deleted; the resulting reachable state satisfies the
amended claim, has one document left, and no "notes/a.md" bucket. -/
theorem c3_witness :
    ((∀ p i, i ∈ getDocumentIdsByPath c3WitnessState p ↔
        ∃ e, mapGet c3WitnessState.documents i = some e ∧ e.doc.metadata.filePath = p) ∧
      (∀ i, (mapGet c3WitnessState.documents i).isSome = true →
        ∃! p, ∃ s, mapGet c3WitnessState.pathIndex p = some s ∧ i ∈ s) ∧
      (∀ p s, mapGet c3WitnessState.pathIndex p = some s → s ≠ [])) ∧
    getCount c3WitnessState = 1 ∧
    mapGet c3WitnessState.pathIndex "notes/a.md" = none := by
  refine ⟨?_, by decide, by decide⟩
  have hr : Reachable (fun _ => 1) c3WitnessState := by
    have h1 : GoodStep (fun _ => 1) emptyStore
        (addDocuments (fun _ => 1) emptyStore c3WitnessDocs) :=
      GoodStep.add _ _ ⟨by intro d hd e he; simp [emptyStore, mapGet] at he, by decide⟩
    exact Relation.ReflTransGen.tail (Relation.ReflTransGen.single h1) (GoodStep.delete _ _)
  exact c3_path_index_consistency (fun _ => 1) c3WitnessState hr

/-! ### Claim C1: heap access and swap lemmas -/

theorem entAt_set_self (h : List HeapEntry) (i : Nat) (x : HeapEntry) (hi : i < h.length) :
    entAt (h.set i x) i = x := by
  simp [entAt, List.getD_eq_getElem?_getD, List.getElem?_set_self' , hi]

theorem entAt_set_ne (h : List HeapEntry) (i j : Nat) (x : HeapEntry) (hij : i ≠ j) :
    entAt (h.set i x) j = entAt h j := by
  simp [entAt, List.getD_eq_getElem?_getD, List.getElem?_set_ne hij]

theorem length_swapAt (h : List HeapEntry) (i j : Nat) :
    (swapAt h i j).length = h.length := by
  simp [swapAt]

theorem entAt_swapAt_fst (h : List HeapEntry) (i j : Nat) (hi : i < h.length) (hij : i ≠ j) :
    entAt (swapAt h i j) i = entAt h j := by
  unfold swapAt
  rw [entAt_set_ne _ j i _ (Ne.symm hij), entAt_set_self _ i _ hi]

theorem entAt_swapAt_snd (h : List HeapEntry) (i j : Nat) (hj : j < h.length) :
    entAt (swapAt h i j) j = entAt h i := by
  unfold swapAt
  exact entAt_set_self _ j _ (by simpa using hj)

theorem entAt_swapAt_other (h : List HeapEntry) (i j k : Nat) (hki : k ≠ i) (hkj : k ≠ j) :
    entAt (swapAt h i j) k = entAt h k := by
  unfold swapAt
  rw [entAt_set_ne _ j k _ (Ne.symm hkj), entAt_set_ne _ i k _ (Ne.symm hki)]

theorem simAt_swapAt_fst (h : List HeapEntry) (i j : Nat) (hi : i < h.length) (hij : i ≠ j) :
    simAt (swapAt h i j) i = simAt h j :=
  congrArg HeapEntry.similarity (entAt_swapAt_fst h i j hi hij)

theorem simAt_swapAt_snd (h : List HeapEntry) (i j : Nat) (hj : j < h.length) :
    simAt (swapAt h i j) j = simAt h i :=
  congrArg HeapEntry.similarity (entAt_swapAt_snd h i j hj)

theorem simAt_swapAt_other (h : List HeapEntry) (i j k : Nat) (hki : k ≠ i) (hkj : k ≠ j) :
    simAt (swapAt h i j) k = simAt h k :=
  congrArg HeapEntry.similarity (entAt_swapAt_other h i j k hki hkj)

/-- A child index is strictly greater than its parent. -/
theorem parent_lt_child (i j : Nat) (hj : 0 < j) (hp : (j - 1) / 2 = i) : i < j := by
  have h2 : (j - 1) / 2 * 2 ≤ j - 1 := Nat.div_mul_le_self (j - 1) 2
  rw [hp] at h2
  omega

theorem parent_of_left (i : Nat) : (2 * i + 1 - 1) / 2 = i := by
  simp [Nat.mul_div_cancel_left]

theorem parent_of_right (i : Nat) : (2 * i + 2 - 1) / 2 = i := by
  have : 2 * i + 2 - 1 = 2 * i + 1 := by omega
  rw [this, Nat.mul_add_div (by norm_num)]
  norm_num

theorem isHeap_root_le (h : List HeapEntry) (hh : IsHeap h) :
    ∀ j, j < h.length → simAt h 0 ≤ simAt h j := by
  intro j
  induction j using Nat.strong_induction_on with
  | _ j ih =>
    intro hj
    rcases Nat.eq_zero_or_pos j with rfl | hpos
    · exact le_refl _
    · have hp : (j - 1) / 2 < j := lt_of_le_of_lt (Nat.div_le_self _ _) (by omega)
      exact le_trans (ih _ hp (lt_trans hp hj)) (hh j hpos hj)

theorem entAt_mem (h : List HeapEntry) (i : Nat) (hi : i < h.length) : entAt h i ∈ h := by
  rw [entAt, List.getD_eq_getElem?_getD, List.getElem?_eq_getElem hi]
  exact List.getElem_mem hi

theorem isHeap_root_min (h : List HeapEntry) (hh : IsHeap h) :
    ∀ e ∈ h, simAt h 0 ≤ e.similarity := by
  intro e he
  obtain ⟨j, hj, hje⟩ := List.mem_iff_getElem.mp he
  have hje' : entAt h j = e := by
    rw [entAt, List.getD_eq_getElem?_getD, List.getElem?_eq_getElem hj]
    exact hje
  have hroot := isHeap_root_le h hh j hj
  rw [show simAt h j = e.similarity from congrArg HeapEntry.similarity hje'] at hroot
  exact hroot

theorem cons_get_set_perm :
    ∀ (t : List HeapEntry) (m : Nat) (a : HeapEntry), m < t.length →
      (entAt t m :: t.set m a).Perm (a :: t) := by
  intro t
  induction t with
  | nil => intro m a hm; simp at hm
  | cons b t' ih =>
    intro m a hm
    cases m with
    | zero =>
      have h0 : entAt (b :: t') 0 = b := rfl
      rw [h0, List.set_cons_zero]
      exact List.Perm.swap a b t'
    | succ m' =>
      have hm' : m' < t'.length := by simpa using hm
      have hAt : entAt (b :: t') (m' + 1) = entAt t' m' := by
        simp [entAt, List.getD_eq_getElem?_getD]
      rw [hAt, List.set_cons_succ]
      exact ((List.Perm.swap b (entAt t' m') _).trans
        ((ih m' a hm').cons b)).trans (List.Perm.swap a b t')

theorem set_entAt_self : ∀ (h : List HeapEntry) (i : Nat), h.set i (entAt h i) = h := by
  intro h
  induction h with
  | nil => intro i; rfl
  | cons b t ih =>
    intro i
    cases i with
    | zero => rfl
    | succ i' =>
      have : entAt (b :: t) (i' + 1) = entAt t i' := by
        simp [entAt, List.getD_eq_getElem?_getD]
      rw [this, List.set_cons_succ, ih i']

theorem swapAt_perm (h : List HeapEntry) (i j : Nat) (hi : i < h.length)
    (hj : j < h.length) : (swapAt h i j).Perm h := by
  by_cases hij : i = j
  · have hswap : swapAt h j j = h := by
      unfold swapAt
      rw [set_entAt_self, set_entAt_self]
    rw [hij, hswap]
  · have e1 : entAt (h.set i (entAt h j)) j = entAt h j := entAt_set_ne h i j _ hij
    have p2 := cons_get_set_perm (h.set i (entAt h j)) j (entAt h i)
      (by simpa using hj)
    rw [e1] at p2
    have p1 := cons_get_set_perm h i (entAt h j) hi
    exact (p2.trans p1).cons_inv


/-! ### Claim C1: bubbleUp preserves the heap -/

theorem upInv_swap (h : List HeapEntry) (i : Nat) (hi0 : 0 < i) (hil : i < h.length)
    (hinv : UpInv h i) (hcmp : simAt h i < simAt h ((i - 1) / 2)) :
    UpInv (swapAt h i ((i - 1) / 2)) ((i - 1) / 2) := by
  obtain ⟨H1, H2⟩ := hinv
  set p := (i - 1) / 2 with hpdef
  have hpi : p < i := lt_of_le_of_lt (Nat.div_le_self _ _) (by omega)
  have hpl : p < h.length := lt_trans hpi hil
  have hip : i ≠ p := by omega
  have hsl : simAt (swapAt h i p) i = simAt h p := simAt_swapAt_fst h i p hil hip
  have hsr : simAt (swapAt h i p) p = simAt h i := simAt_swapAt_snd h i p hpl
  have hso : ∀ k, k ≠ i → k ≠ p → simAt (swapAt h i p) k = simAt h k :=
    fun k hki hkp => simAt_swapAt_other h i p k hki hkp
  constructor
  · intro j hj0 hjl hjp
    rw [length_swapAt] at hjl
    by_cases hji : j = i
    · subst hji
      rw [show (j - 1) / 2 = p from hpdef.symm, hsr, hsl]
      exact le_of_lt hcmp
    · by_cases hparj : (j - 1) / 2 = i
      · have hij' : i < j := parent_lt_child i j hj0 hparj
        rw [hparj, hsl, hso j hji hjp]
        exact H2 hi0 j hjl hparj hj0
      · by_cases hparp : (j - 1) / 2 = p
        · rw [hparp, hsr, hso j hji hjp]
          have h1 := H1 j hj0 hjl hji
          rw [hparp] at h1
          exact le_trans (le_of_lt hcmp) h1
        · rw [hso _ hparj hparp, hso j hji hjp]
          exact H1 j hj0 hjl hji
  · intro hp0 j hjl hparj hj0
    rw [length_swapAt] at hjl
    have hql : (p - 1) / 2 < p := lt_of_le_of_lt (Nat.div_le_self _ _) (by omega)
    rw [hso ((p - 1) / 2) (by omega) (by omega)]
    by_cases hji : j = i
    · subst hji
      rw [hsl]
      exact H1 p hp0 hpl (Ne.symm hip)
    · have hpj : p < j := parent_lt_child p j hj0 hparj
      rw [hso j hji (by omega)]
      have h1 := H1 j hj0 hjl hji
      rw [hparj] at h1
      exact le_trans (H1 p hp0 hpl (Ne.symm hip)) h1

theorem bubbleUpLoop_spec :
    ∀ (fuel : Nat) (h : List HeapEntry) (i : Nat), i < fuel → i < h.length → UpInv h i →
      IsHeap (bubbleUpLoop fuel h i) ∧ (bubbleUpLoop fuel h i).Perm h ∧
      (bubbleUpLoop fuel h i).length = h.length := by
  intro fuel
  induction fuel with
  | zero => intro h i hif; exact absurd hif (Nat.not_lt_zero i)
  | succ fuel ih =>
    intro h i hif hil hinv
    by_cases hi0 : 0 < i
    · by_cases hcmp : simAt h i < simAt h ((i - 1) / 2)
      · have hpi : (i - 1) / 2 < i := lt_of_le_of_lt (Nat.div_le_self _ _) (by omega)
        have hrec := ih (swapAt h i ((i - 1) / 2)) ((i - 1) / 2) (by omega)
          (by rw [length_swapAt]; exact lt_trans hpi hil)
          (upInv_swap h i hi0 hil hinv hcmp)
        have hstep : bubbleUpLoop (fuel + 1) h i =
            bubbleUpLoop fuel (swapAt h i ((i - 1) / 2)) ((i - 1) / 2) := by
          simp only [bubbleUpLoop, if_pos hi0, if_pos hcmp]
        rw [hstep]
        exact ⟨hrec.1, hrec.2.1.trans (swapAt_perm h i ((i - 1) / 2) hil
          (lt_trans hpi hil)), hrec.2.2.trans (length_swapAt h i ((i - 1) / 2))⟩
      · have hstep : bubbleUpLoop (fuel + 1) h i = h := by
          simp only [bubbleUpLoop, if_pos hi0, if_neg hcmp]
        rw [hstep]
        refine ⟨?_, List.Perm.refl h, rfl⟩
        intro j hj0 hjl
        by_cases hji : j = i
        · subst hji
          exact le_of_not_lt hcmp
        · exact hinv.1 j hj0 hjl hji
    · have hstep : bubbleUpLoop (fuel + 1) h i = h := by
        simp only [bubbleUpLoop, if_neg hi0]
      rw [hstep]
      refine ⟨?_, List.Perm.refl h, rfl⟩
      intro j hj0 hjl
      exact hinv.1 j hj0 hjl (by omega)

theorem simAt_append_left (g l : List HeapEntry) (k : Nat) (hk : k < g.length) :
    simAt (g ++ l) k = simAt g k := by
  simp [simAt, entAt, List.getD_eq_getElem?_getD, List.getElem?_append_left hk]

theorem heapBubbleUp_spec (g : List HeapEntry) (x : HeapEntry) (hg : IsHeap g) :
    IsHeap (heapBubbleUp (g ++ [x])) ∧ (heapBubbleUp (g ++ [x])).Perm (g ++ [x]) ∧
    (heapBubbleUp (g ++ [x])).length = g.length + 1 := by
  have hlen : (g ++ [x]).length = g.length + 1 := by simp
  have hinv : UpInv (g ++ [x]) g.length := by
    constructor
    · intro j hj0 hjl hjne
      rw [hlen] at hjl
      have hjg : j < g.length := by omega
      have hpg : (j - 1) / 2 < g.length :=
        lt_trans (lt_of_le_of_lt (Nat.div_le_self _ _) (by omega)) hjg
      rw [simAt_append_left g [x] j hjg, simAt_append_left g [x] _ hpg]
      exact hg j hj0 hjg
    · intro h0 j hjl hpar hj0
      rw [hlen] at hjl
      have := parent_lt_child g.length j hj0 hpar
      have h2 : (j - 1) / 2 * 2 ≤ j - 1 := Nat.div_mul_le_self (j - 1) 2
      rw [hpar] at h2
      omega
  have hidx : (g ++ [x]).length - 1 = g.length := by omega
  have hspec := bubbleUpLoop_spec (g ++ [x]).length (g ++ [x]) ((g ++ [x]).length - 1)
    (by omega) (by omega) (by rw [hidx]; exact hinv)
  unfold heapBubbleUp
  exact ⟨hspec.1, hspec.2.1, by rw [hspec.2.2, hlen]⟩

/-! ### Claim C1: bubbleDown preserves the heap -/

theorem child_cases (i j : Nat) (hj0 : 0 < j) (hp : (j - 1) / 2 = i) :
    j = 2 * i + 1 ∨ j = 2 * i + 2 := by
  have hdm := Nat.div_add_mod (j - 1) 2
  have hmod : (j - 1) % 2 < 2 := Nat.mod_lt _ (by norm_num)
  rw [hp] at hdm
  omega

theorem simAt_set_ne (h : List HeapEntry) (i j : Nat) (x : HeapEntry) (hij : i ≠ j) :
    simAt (h.set i x) j = simAt h j :=
  congrArg HeapEntry.similarity (entAt_set_ne h i j x hij)

theorem downInv_swap (h : List HeapEntry) (i s2 : Nat) (hil : i < h.length)
    (hs2l : s2 < h.length) (hs2 : s2 = 2 * i + 1 ∨ s2 = 2 * i + 2)
    (hmin_i : simAt h s2 < simAt h i)
    (hmin_c : ∀ c, (c = 2 * i + 1 ∨ c = 2 * i + 2) → c < h.length →
      simAt h s2 ≤ simAt h c)
    (hinv : DownInv h i) : DownInv (swapAt h i s2) s2 := by
  obtain ⟨H1, H2⟩ := hinv
  have his2 : i < s2 := by rcases hs2 with rfl | rfl <;> omega
  have hpar_s2 : (s2 - 1) / 2 = i := by
    rcases hs2 with rfl | rfl
    · exact parent_of_left i
    · exact parent_of_right i
  have hsl : simAt (swapAt h i s2) i = simAt h s2 := simAt_swapAt_fst h i s2 hil (by omega)
  have hsr : simAt (swapAt h i s2) s2 = simAt h i := simAt_swapAt_snd h i s2 hs2l
  have hso : ∀ k, k ≠ i → k ≠ s2 → simAt (swapAt h i s2) k = simAt h k :=
    fun k hki hks => simAt_swapAt_other h i s2 k hki hks
  constructor
  · intro j hj0 hjl hjc1 hjc2
    rw [length_swapAt] at hjl
    by_cases hjs2 : j = s2
    · subst hjs2
      rw [hpar_s2, hsl, hsr]
      exact le_of_lt hmin_i
    · by_cases hji : j = i
      · subst hji
        rw [hso ((j - 1) / 2) (by omega)
            (by have := Nat.div_le_self (j - 1) 2; omega), hsl]
        exact H2 hj0 s2 hs2l hs2
      · by_cases hparji : (j - 1) / 2 = i
        · have hjchild := child_cases i j hj0 hparji
          rw [hparji, hsl, hso j hji hjs2]
          exact hmin_c j hjchild hjl
        · by_cases hparjs : (j - 1) / 2 = s2
          · rcases child_cases s2 j hj0 hparjs with rfl | rfl
            · exact absurd rfl hjc1
            · exact absurd rfl hjc2
          · rw [hso _ hparji hparjs, hso j hji hjs2]
            have hj1 : j ≠ 2 * i + 1 := fun hj => hparji (by rw [hj]; exact parent_of_left i)
            have hj2 : j ≠ 2 * i + 2 := fun hj => hparji (by rw [hj]; exact parent_of_right i)
            exact H1 j hj0 hjl hj1 hj2
  · intro hs20 j hjl hjc
    rw [length_swapAt] at hjl
    have hjgt : s2 < j := by rcases hjc with rfl | rfl <;> omega
    rw [hpar_s2, hsl, hso j (by omega) (by omega)]
    have hj1 : j ≠ 2 * i + 1 := by rcases hs2 with rfl | rfl <;> rcases hjc with rfl | rfl <;> omega
    have hj2 : j ≠ 2 * i + 2 := by rcases hs2 with rfl | rfl <;> rcases hjc with rfl | rfl <;> omega
    have hparj : (j - 1) / 2 = s2 := by
      rcases hjc with rfl | rfl
      · exact parent_of_left s2
      · exact parent_of_right s2
    have h1 := H1 j (by omega) hjl hj1 hj2
    rw [hparj] at h1
    exact h1

theorem bubbleDownLoop_spec :
    ∀ (fuel : Nat) (h : List HeapEntry) (i : Nat), h.length ≤ fuel + i → i < h.length →
      DownInv h i →
      IsHeap (bubbleDownLoop fuel h i) ∧ (bubbleDownLoop fuel h i).Perm h ∧
      (bubbleDownLoop fuel h i).length = h.length := by
  intro fuel
  induction fuel with
  | zero => intro h i hfuel hil hinv; exact absurd hil (by omega)
  | succ fuel ih =>
    intro h i hfuel hil hinv
    by_cases hc1 : 2 * i + 1 < h.length ∧ simAt h (2 * i + 1) < simAt h i
    · by_cases hc2 : 2 * i + 2 < h.length ∧ simAt h (2 * i + 2) < simAt h (2 * i + 1)
      · have hstep : bubbleDownLoop (fuel + 1) h i =
            bubbleDownLoop fuel (swapAt h i (2 * i + 2)) (2 * i + 2) := by
          simp only [bubbleDownLoop, if_pos hc1, if_pos hc2,
            if_pos (show (2 * i + 2) ≠ i by omega)]
        have hmin_c : ∀ c, (c = 2 * i + 1 ∨ c = 2 * i + 2) → c < h.length →
            simAt h (2 * i + 2) ≤ simAt h c := by
          intro c hc hcl
          rcases hc with rfl | rfl
          · exact le_of_lt hc2.2
          · exact le_refl _
        have hinv' := downInv_swap h i (2 * i + 2) hil hc2.1 (Or.inr rfl)
          (lt_trans hc2.2 hc1.2) hmin_c hinv
        have hrec := ih (swapAt h i (2 * i + 2)) (2 * i + 2)
          (by rw [length_swapAt]; omega) (by rw [length_swapAt]; exact hc2.1) hinv'
        rw [hstep]
        exact ⟨hrec.1, hrec.2.1.trans (swapAt_perm h i (2 * i + 2) hil hc2.1),
          hrec.2.2.trans (length_swapAt _ _ _)⟩
      · have hstep : bubbleDownLoop (fuel + 1) h i =
            bubbleDownLoop fuel (swapAt h i (2 * i + 1)) (2 * i + 1) := by
          simp only [bubbleDownLoop, if_pos hc1, if_neg hc2,
            if_pos (show (2 * i + 1) ≠ i by omega)]
        push_neg at hc2
        have hmin_c : ∀ c, (c = 2 * i + 1 ∨ c = 2 * i + 2) → c < h.length →
            simAt h (2 * i + 1) ≤ simAt h c := by
          intro c hc hcl
          rcases hc with rfl | rfl
          · exact le_refl _
          · exact hc2 hcl
        have hinv' := downInv_swap h i (2 * i + 1) hil hc1.1 (Or.inl rfl) hc1.2 hmin_c hinv
        have hrec := ih (swapAt h i (2 * i + 1)) (2 * i + 1)
          (by rw [length_swapAt]; omega) (by rw [length_swapAt]; exact hc1.1) hinv'
        rw [hstep]
        exact ⟨hrec.1, hrec.2.1.trans (swapAt_perm h i (2 * i + 1) hil hc1.1),
          hrec.2.2.trans (length_swapAt _ _ _)⟩
    · by_cases hc2 : 2 * i + 2 < h.length ∧ simAt h (2 * i + 2) < simAt h i
      · have hstep : bubbleDownLoop (fuel + 1) h i =
            bubbleDownLoop fuel (swapAt h i (2 * i + 2)) (2 * i + 2) := by
          simp only [bubbleDownLoop, if_neg hc1, if_pos hc2,
            if_pos (show (2 * i + 2) ≠ i by omega)]
        have hc1' := hc1
        push_neg at hc1'
        have hmin_c : ∀ c, (c = 2 * i + 1 ∨ c = 2 * i + 2) → c < h.length →
            simAt h (2 * i + 2) ≤ simAt h c := by
          intro c hc hcl
          rcases hc with rfl | rfl
          · exact le_trans (le_of_lt hc2.2) (hc1' hcl)
          · exact le_refl _
        have hinv' := downInv_swap h i (2 * i + 2) hil hc2.1 (Or.inr rfl) hc2.2 hmin_c hinv
        have hrec := ih (swapAt h i (2 * i + 2)) (2 * i + 2)
          (by rw [length_swapAt]; omega) (by rw [length_swapAt]; exact hc2.1) hinv'
        rw [hstep]
        exact ⟨hrec.1, hrec.2.1.trans (swapAt_perm h i (2 * i + 2) hil hc2.1),
          hrec.2.2.trans (length_swapAt _ _ _)⟩
      · have hstep : bubbleDownLoop (fuel + 1) h i = h := by
          simp only [bubbleDownLoop, if_neg hc1, if_neg hc2,
            if_neg (show ¬ (i ≠ i) by simp)]
        rw [hstep]
        push_neg at hc1 hc2
        refine ⟨?_, List.Perm.refl h, rfl⟩
        intro j hj0 hjl
        by_cases hj1 : j = 2 * i + 1
        · subst hj1
          rw [parent_of_left]
          exact hc1 hjl
        · by_cases hj2 : j = 2 * i + 2
          · subst hj2
            rw [parent_of_right]
            exact hc2 hjl
          · exact hinv.1 j hj0 hjl hj1 hj2

theorem heapBubbleDown_set_spec (h : List HeapEntry) (x : HeapEntry) (hh : IsHeap h)
    (h0 : 0 < h.length) :
    IsHeap (heapBubbleDown (h.set 0 x)) ∧
    (heapBubbleDown (h.set 0 x)).Perm (h.set 0 x) ∧
    (heapBubbleDown (h.set 0 x)).length = h.length := by
  have hlen : (h.set 0 x).length = h.length := List.length_set h 0 x
  have hinv : DownInv (h.set 0 x) 0 := by
    constructor
    · intro j hj0 hjl hj1 hj2
      rw [hlen] at hjl
      have hdm := Nat.div_add_mod (j - 1) 2
      have hmod : (j - 1) % 2 < 2 := Nat.mod_lt _ (by norm_num)
      have hparpos : 0 < (j - 1) / 2 := by omega
      rw [simAt_set_ne h 0 _ x (by omega), simAt_set_ne h 0 j x (by omega)]
      exact hh j hj0 hjl
    · intro h00
      exact absurd h00 (by omega)
  unfold heapBubbleDown
  have hspec := bubbleDownLoop_spec (h.set 0 x).length (h.set 0 x) 0 (by omega)
    (by rw [hlen]; exact h0) hinv
  exact ⟨hspec.1, hspec.2.1, hspec.2.2.trans hlen⟩

/-! ### Claim C1: top-K selection at the multiset level -/

theorem isTopK_unique (k : Nat) (M S1 S2 : Multiset HeapEntry)
    (h1 : IsTopK k M S1) (h2 : IsTopK k M S2) : S1 = S2 := by
  obtain ⟨hle1, hcard1, htop1⟩ := h1
  obtain ⟨hle2, hcard2, htop2⟩ := h2
  by_contra hne
  have hX : ∃ a, Multiset.count a S2 < Multiset.count a S1 := by
    by_contra hc
    push_neg at hc
    have hle : S1 ≤ S2 := Multiset.le_iff_count.mpr hc
    exact hne (Multiset.eq_of_le_of_card_le hle (hcard2.trans hcard1.symm).le)
  have hY : ∃ b, Multiset.count b S1 < Multiset.count b S2 := by
    by_contra hc
    push_neg at hc
    have hle : S2 ≤ S1 := Multiset.le_iff_count.mpr hc
    exact hne (Multiset.eq_of_le_of_card_le hle (hcard1.trans hcard2.symm).le).symm
  obtain ⟨a, ha⟩ := hX
  obtain ⟨b, hb⟩ := hY
  have haS1 : a ∈ S1 := by rw [← Multiset.count_pos]; omega
  have hbS2 : b ∈ S2 := by rw [← Multiset.count_pos]; omega
  have haMS2 : a ∈ M - S2 := by
    have h1 := Multiset.count_le_of_le a hle1
    rw [← Multiset.count_pos, Multiset.count_sub]
    omega
  have hbMS1 : b ∈ M - S1 := by
    have h1 := Multiset.count_le_of_le b hle2
    rw [← Multiset.count_pos, Multiset.count_sub]
    omega
  exact absurd (lt_trans (htop1 a haS1 b hbMS1) (htop2 b hbS2 a haMS2)) (lt_irrefl _)

theorem isTopK_push (k : Nat) (M S : Multiset HeapEntry) (e : HeapEntry)
    (hT : IsTopK k M S) (hlt : Multiset.card S < k) :
    IsTopK k (M + {e}) (S + {e}) := by
  obtain ⟨hle, hcard, htop⟩ := hT
  have hMeq : Multiset.card M = Multiset.card S := by
    rcases Nat.le_total k (Multiset.card M) with h | h
    · rw [min_eq_left h] at hcard; omega
    · rw [min_eq_right h] at hcard; omega
  have hMS0 : M - S = 0 := by
    rw [← Multiset.card_eq_zero, Multiset.card_sub hle]
    omega
  refine ⟨add_le_add_right hle _, ?_, ?_⟩
  · rw [Multiset.card_add, Multiset.card_add, Multiset.card_singleton, hMeq,
      min_eq_right (by omega : Multiset.card S + 1 ≤ k)]
  · intro a ha b hb
    exfalso
    have hcnt : Multiset.count b ((M + {e}) - (S + {e})) = Multiset.count b (M - S) := by
      simp only [Multiset.count_sub, Multiset.count_add]
      omega
    rw [← Multiset.count_pos, hcnt, Multiset.count_pos, hMS0] at hb
    exact Multiset.not_mem_zero b hb

theorem isTopK_replace (k : Nat) (M S : Multiset HeapEntry) (r e : HeapEntry)
    (S' : Multiset HeapEntry) (hT : IsTopK k M S) (hrS : r ∈ S)
    (hmin : ∀ a ∈ S, r.similarity ≤ a.similarity)
    (hre : r.similarity < e.similarity)
    (heq : r ::ₘ S' = e ::ₘ S)
    (hSk : Multiset.card S = k)
    (hMd : ∀ a ∈ M, ∀ b ∈ M, a.similarity = b.similarity → a = b)
    (hM1 : ∀ x, Multiset.count x M ≤ 1)
    (heM : e ∉ M) :
    IsTopK k (M + {e}) S' := by
  obtain ⟨hle, hcard, htop⟩ := hT
  have hre_ne : r ≠ e := fun h => absurd hre (by rw [h]; exact lt_irrefl _)
  have hcnt : ∀ x, Multiset.count x S' + (if x = r then 1 else 0) =
      Multiset.count x S + (if x = e then 1 else 0) := by
    intro x
    have h := congrArg (Multiset.count x) heq
    simpa [Multiset.count_cons] using h
  have heS : Multiset.count e S = 0 := by
    rw [Multiset.count_eq_zero]
    intro hc
    exact heM (Multiset.mem_of_le hle hc)
  have hrM : Multiset.count r M = 1 := by
    have h1 := Multiset.count_le_of_le r hle
    have h2 := Multiset.count_pos.mpr hrS
    have h3 := hM1 r
    omega
  have hrS1 : Multiset.count r S = 1 := by
    have h1 := Multiset.count_le_of_le r hle
    have h2 := Multiset.count_pos.mpr hrS
    have h3 := hM1 r
    omega
  have hrS' : Multiset.count r S' = 0 := by
    have h := hcnt r
    simp [hre_ne] at h
    omega
  have heS' : Multiset.count e S' = 1 := by
    have h := hcnt e
    simp [Ne.symm hre_ne] at h
    omega
  refine ⟨?_, ?_, ?_⟩
  · rw [Multiset.le_iff_count]
    intro x
    have h1 := hcnt x
    have h2 := Multiset.count_le_of_le x hle
    rw [Multiset.count_add, Multiset.count_singleton]
    rcases eq_or_ne x r with rfl | hxr
    · simp [hre_ne] at h1 ⊢
      omega
    · rcases eq_or_ne x e with rfl | hxe
      · simp [hxr] at h1 ⊢
        omega
      · simp [hxr, hxe] at h1 ⊢
        omega
  · have hc := congrArg Multiset.card heq
    simp only [Multiset.card_cons] at hc
    have hkM : k ≤ Multiset.card M := by
      have := Multiset.card_le_card hle
      omega
    rw [Multiset.card_add, Multiset.card_singleton,
      min_eq_left (by omega : k ≤ Multiset.card M + 1)]
    omega
  · intro a ha b hb
    have hbcnt : Multiset.count b S' < Multiset.count b (M + {e}) := by
      have h := Multiset.count_pos.mpr hb
      rw [Multiset.count_sub] at h
      omega
    rw [Multiset.count_add, Multiset.count_singleton] at hbcnt
    have hane : a = e ∨ (a ∈ S ∧ a ≠ r ∧ a ≠ e) := by
      rcases eq_or_ne a e with rfl | hae
      · exact Or.inl rfl
      · have h1 := hcnt a
        have h2 := Multiset.count_pos.mpr ha
        rcases eq_or_ne a r with rfl | har
        · omega
        · right
          refine ⟨?_, har, hae⟩
          rw [← Multiset.count_pos]
          simp [har, hae] at h1
          omega
    have hbne : b = r ∨ (b ∈ M - S ∧ b ≠ e) := by
      by_cases hbe : b = e
      · exfalso
        subst hbe
        have h3 := Multiset.count_eq_zero.mpr heM
        simp at hbcnt
        omega
      · by_cases hbr : b = r
        · exact Or.inl hbr
        · right
          refine ⟨?_, hbe⟩
          rw [← Multiset.count_pos, Multiset.count_sub]
          have h1 := hcnt b
          simp [hbr, hbe] at h1
          simp [hbe] at hbcnt
          omega
    rcases hane with hae' | ⟨haS, har, hae⟩ <;> rcases hbne with hbr' | ⟨hbMS, hbe⟩ <;>
      try subst hae'
    · rw [hbr']
      exact hre
    · exact lt_trans (htop r hrS b hbMS) hre
    · have haM : a ∈ M := Multiset.mem_of_le hle haS
      have hrM' : r ∈ M := Multiset.mem_of_le hle hrS
      rw [hbr']
      exact lt_of_le_of_ne (hmin a haS) fun hsim => har (hMd a haM r hrM' hsim.symm)
    · exact htop a haS b hbMS

theorem isTopK_keep (k : Nat) (M S : Multiset HeapEntry) (r e : HeapEntry)
    (hT : IsTopK k M S)
    (hmin : ∀ a ∈ S, r.similarity ≤ a.similarity)
    (hre : e.similarity ≤ r.similarity)
    (hSk : Multiset.card S = k)
    (hsimne : ∀ a ∈ M, a.similarity ≠ e.similarity) :
    IsTopK k (M + {e}) S := by
  obtain ⟨hle, hcard, htop⟩ := hT
  have heM : e ∉ M := fun h => hsimne e h rfl
  have hkM : k ≤ Multiset.card M := by
    have := Multiset.card_le_card hle
    omega
  refine ⟨hle.trans (Multiset.le_add_right _ _), ?_, ?_⟩
  · rw [Multiset.card_add, Multiset.card_singleton, hSk,
      min_eq_left (by omega : k ≤ Multiset.card M + 1)]
  · intro a ha b hb
    rcases eq_or_ne b e with rfl | hbe
    · have haM : a ∈ M := Multiset.mem_of_le hle ha
      exact lt_of_le_of_ne (hre.trans (hmin a ha)) (Ne.symm (hsimne a haM))
    · have hbMS : b ∈ M - S := by
        have hpos := Multiset.count_pos.mpr hb
        rw [Multiset.count_sub, Multiset.count_add, Multiset.count_singleton] at hpos
        simp [hbe] at hpos
        rw [← Multiset.count_pos, Multiset.count_sub]
        omega
      exact htop a ha b hbMS

/-! ### Claim C1: distinct-similarity helpers -/

theorem simInj_of_distinct : ∀ (P : List HeapEntry), DistinctSims P →
    ∀ a ∈ P, ∀ b ∈ P, a.similarity = b.similarity → a = b := by
  intro P
  induction P with
  | nil => intro _ a ha; exact absurd ha (List.not_mem_nil a)
  | cons x t ih =>
    intro hd a ha b hb heq
    have hd' : (x :: t).Pairwise (fun a b => a.similarity ≠ b.similarity) := hd
    rw [List.pairwise_cons] at hd'
    rcases List.mem_cons.mp ha with rfl | ha'
    · rcases List.mem_cons.mp hb with rfl | hb'
      · rfl
      · exact absurd heq (hd'.1 b hb')
    · rcases List.mem_cons.mp hb with rfl | hb'
      · exact absurd heq.symm (hd'.1 a ha')
      · exact ih hd'.2 a ha' b hb' heq

theorem nodupCount_of_distinct (P : List HeapEntry) (hd : DistinctSims P) :
    ∀ x, Multiset.count x (↑P : Multiset HeapEntry) ≤ 1 := by
  intro x
  have hd' : P.Pairwise (fun a b => a.similarity ≠ b.similarity) := hd
  have hnd : P.Nodup := hd'.imp fun h => fun he => h (by rw [he])
  exact Multiset.nodup_iff_count_le_one.mp (Multiset.coe_nodup.mpr hnd) x

theorem distinctSims_of_le (P h : List HeapEntry) (hd : DistinctSims P)
    (hle : (↑h : Multiset HeapEntry) ≤ ↑P) : DistinctSims h := by
  obtain ⟨l, hlp, hls⟩ := Multiset.coe_le.mp hle
  have hd' : P.Pairwise (fun a b => a.similarity ≠ b.similarity) := hd
  have hpl : l.Pairwise (fun a b => a.similarity ≠ b.similarity) := hd'.sublist hls
  exact (hlp.pairwise_iff fun hab => Ne.symm hab).mp hpl

/-! ### Claim C1: the search loop invariant -/

theorem searchInv_nil (k : Nat) : SearchInv k [] [] := by
  refine ⟨?_, by simp, le_refl _, ?_⟩
  · intro j hj0 hjl
    simp at hjl
  · intro _
    refine ⟨le_refl _, by simp, ?_⟩
    intro a ha
    simp at ha

theorem searchStep_inv (k : Nat) (hk : 0 < k) (P h : List HeapEntry) (e : HeapEntry)
    (hinv : SearchInv k P h) : SearchInv k (P ++ [e]) (searchStep k h e) := by
  obtain ⟨hheap, hlen, hle, htop⟩ := hinv
  have hPlen : (P ++ [e]).length = P.length + 1 := by simp
  unfold searchStep
  by_cases hlt : h.length < k
  · rw [if_pos hlt]
    have hbu := heapBubbleUp_spec h e hheap
    have hcoe : ((heapBubbleUp (h ++ [e]) : List HeapEntry) : Multiset HeapEntry) =
        ((h ++ [e] : List HeapEntry) : Multiset HeapEntry) := Multiset.coe_eq_coe.mpr hbu.2.1
    have hPk : P.length < k := by
      by_contra hc
      push_neg at hc
      rw [min_eq_left hc] at hlen
      omega
    have hlen' : h.length = P.length := by
      rw [min_eq_right hPk.le] at hlen
      exact hlen
    refine ⟨hbu.1, ?_, ?_, ?_⟩
    · rw [hbu.2.2, hPlen, min_eq_right (by omega : P.length + 1 ≤ k)]
      omega
    · rw [hcoe, ← Multiset.coe_add, ← Multiset.coe_add]
      exact add_le_add_right hle _
    · intro hd
      have hd' : (P ++ [e]).Pairwise (fun a b => a.similarity ≠ b.similarity) := hd
      have hdP : DistinctSims P := hd'.sublist (List.sublist_append_left P [e])
      have hT := htop hdP
      rw [hcoe, ← Multiset.coe_add, ← Multiset.coe_add, Multiset.coe_singleton]
      exact isTopK_push k ↑P ↑h e hT (by rw [Multiset.coe_card]; exact hlt)
  · rw [if_neg hlt]
    have hlenk : h.length = k := by
      have h1 : min k P.length ≤ k := Nat.min_le_left _ _
      omega
    have h0 : 0 < h.length := by omega
    have hPk : k ≤ P.length := by
      by_contra hc
      push_neg at hc
      rw [min_eq_right (by omega)] at hlen
      omega
    have hrmem : entAt h 0 ∈ h := entAt_mem h 0 h0
    have hrmin : ∀ a ∈ (↑h : Multiset HeapEntry), (entAt h 0).similarity ≤ a.similarity := by
      intro a ha
      exact isHeap_root_min h hheap a (Multiset.mem_coe.mp ha)
    by_cases hsim : simAt h 0 < e.similarity
    · rw [if_pos hsim]
      have hbd := heapBubbleDown_set_spec h e hheap h0
      have hcoe : ((heapBubbleDown (h.set 0 e) : List HeapEntry) : Multiset HeapEntry) =
          ((h.set 0 e : List HeapEntry) : Multiset HeapEntry) := Multiset.coe_eq_coe.mpr hbd.2.1
      have hconseq : (entAt h 0) ::ₘ ((h.set 0 e : List HeapEntry) : Multiset HeapEntry) =
          e ::ₘ (↑h : Multiset HeapEntry) := by
        rw [Multiset.cons_coe, Multiset.cons_coe]
        exact Multiset.coe_eq_coe.mpr (cons_get_set_perm h 0 e h0)
      refine ⟨hbd.1, ?_, ?_, ?_⟩
      · rw [hbd.2.2, hPlen, hlenk, min_eq_left (by omega)]
      · rw [hcoe, ← Multiset.coe_add, Multiset.coe_singleton, Multiset.le_iff_count]
        intro x
        have h1 := congrArg (Multiset.count x) hconseq
        simp only [Multiset.count_cons] at h1
        have h2 := Multiset.count_le_of_le x hle
        rw [Multiset.count_add, Multiset.count_singleton]
        rcases eq_or_ne x (entAt h 0) with hxr | hxr
        · rw [if_pos hxr] at h1
          rcases eq_or_ne x e with hxe | hxe
          · rw [if_pos hxe] at h1 ⊢
            omega
          · rw [if_neg hxe] at h1 ⊢
            omega
        · rw [if_neg hxr] at h1
          rcases eq_or_ne x e with hxe | hxe
          · rw [if_pos hxe] at h1 ⊢
            omega
          · rw [if_neg hxe] at h1 ⊢
            omega
      · intro hd
        have hd' : (P ++ [e]).Pairwise (fun a b => a.similarity ≠ b.similarity) := hd
        have hdP : DistinctSims P := hd'.sublist (List.sublist_append_left P [e])
        have hT := htop hdP
        have hsimne : ∀ a ∈ (↑P : Multiset HeapEntry), a.similarity ≠ e.similarity := by
          intro a ha
          exact (List.pairwise_append.mp hd').2.2 a (Multiset.mem_coe.mp ha) e (by simp)
        have heM : e ∉ (↑P : Multiset HeapEntry) := fun hc => hsimne e hc rfl
        have hMd : ∀ a ∈ (↑P : Multiset HeapEntry), ∀ b ∈ (↑P : Multiset HeapEntry),
            a.similarity = b.similarity → a = b := by
          intro a ha b hb
          exact simInj_of_distinct P hdP a (Multiset.mem_coe.mp ha) b (Multiset.mem_coe.mp hb)
        rw [hcoe, ← Multiset.coe_add, Multiset.coe_singleton]
        exact isTopK_replace k ↑P ↑h (entAt h 0) e ↑(h.set 0 e) hT
          (Multiset.mem_coe.mpr hrmem) hrmin hsim hconseq
          (by rw [Multiset.coe_card]; omega) hMd (nodupCount_of_distinct P hdP) heM
    · rw [if_neg hsim]
      refine ⟨hheap, ?_, ?_, ?_⟩
      · rw [hPlen, hlenk, min_eq_left (by omega)]
      · rw [← Multiset.coe_add]
        exact hle.trans (Multiset.le_add_right _ _)
      · intro hd
        have hd' : (P ++ [e]).Pairwise (fun a b => a.similarity ≠ b.similarity) := hd
        have hdP : DistinctSims P := hd'.sublist (List.sublist_append_left P [e])
        have hT := htop hdP
        have hsimne : ∀ a ∈ (↑P : Multiset HeapEntry), a.similarity ≠ e.similarity := by
          intro a ha
          exact (List.pairwise_append.mp hd').2.2 a (Multiset.mem_coe.mp ha) e (by simp)
        rw [← Multiset.coe_add, Multiset.coe_singleton]
        exact isTopK_keep k ↑P ↑h (entAt h 0) e hT hrmin (not_lt.mp hsim)
          (by rw [Multiset.coe_card]; omega) hsimne

theorem foldSearch_inv (k : Nat) (hk : 0 < k) :
    ∀ (es P h : List HeapEntry), SearchInv k P h →
      SearchInv k (P ++ es) (es.foldl (searchStep k) h) := by
  intro es
  induction es with
  | nil =>
    intro P h hinv
    simpa using hinv
  | cons e t ih =>
    intro P h hinv
    have h1 := searchStep_inv k hk P h e hinv
    have h2 := ih (P ++ [e]) _ h1
    simpa [List.append_assoc] using h2

/-! ### Claim C1: sorted lists with distinct similarities -/

theorem leSimDesc_sorted (l : List HeapEntry) :
    (jsSortBy leSimDesc l).Pairwise fun a b => b.similarity ≤ a.similarity := by
  refine pairwise_jsSortBy _ _ ?_ ?_ ?_ l
  · intro a b hab
    simpa [leSimDesc] using hab
  · intro a b
    simp only [leSimDesc, decide_eq_true_eq]
    exact le_total _ _
  · intro a b c hab hbc
    exact le_trans hbc hab

theorem pairwise_strict_of_sorted_ne (l : List HeapEntry)
    (hs : l.Pairwise fun a b => b.similarity ≤ a.similarity)
    (hne : l.Pairwise fun a b => a.similarity ≠ b.similarity) :
    l.Pairwise fun a b => b.similarity < a.similarity :=
  (hs.and hne).imp fun h => lt_of_le_of_ne h.1 (Ne.symm h.2)

theorem sorted_distinct_unique (l1 l2 : List HeapEntry)
    (hs1 : l1.Pairwise fun a b => b.similarity < a.similarity)
    (hs2 : l2.Pairwise fun a b => b.similarity < a.similarity)
    (hp : l1.Perm l2) : l1 = l2 := by
  haveI : IsAntisymm HeapEntry (fun a b => b.similarity < a.similarity) :=
    ⟨fun a b h1 h2 => absurd (lt_trans h1 h2) (lt_irrefl _)⟩
  exact List.eq_of_perm_of_sorted hp hs1 hs2

theorem sorted_take_isTopK (k : Nat) (P : List HeapEntry) (hd : DistinctSims P) :
    IsTopK k (↑P : Multiset HeapEntry) (↑(topkSpec k P) : Multiset HeapEntry) := by
  unfold topkSpec
  have hperm : (jsSortBy leSimDesc P).Perm P := jsSortBy_perm leSimDesc P
  have hcoe : ((jsSortBy leSimDesc P : List HeapEntry) : Multiset HeapEntry) = ↑P :=
    Multiset.coe_eq_coe.mpr hperm
  have hne : (jsSortBy leSimDesc P).Pairwise (fun a b => a.similarity ≠ b.similarity) :=
    (hperm.pairwise_iff fun hab => Ne.symm hab).mpr hd
  have hstrict := pairwise_strict_of_sorted_ne _ (leSimDesc_sorted P) hne
  have hsplit : (jsSortBy leSimDesc P).take k ++ (jsSortBy leSimDesc P).drop k =
      jsSortBy leSimDesc P := List.take_append_drop k _
  have hstrict' : ((jsSortBy leSimDesc P).take k ++ (jsSortBy leSimDesc P).drop k).Pairwise
      (fun a b => b.similarity < a.similarity) := by
    rw [hsplit]
    exact hstrict
  refine ⟨?_, ?_, ?_⟩
  · rw [← hcoe]
    exact Multiset.coe_le.mpr (List.take_sublist k _).subperm
  · rw [Multiset.coe_card, Multiset.coe_card, List.length_take, hperm.length_eq]
  · intro a ha b hb
    have hLdec : ((jsSortBy leSimDesc P : List HeapEntry) : Multiset HeapEntry) =
        ↑((jsSortBy leSimDesc P).take k) + ↑((jsSortBy leSimDesc P).drop k) := by
      rw [Multiset.coe_add, hsplit]
    rw [← hcoe, hLdec, add_tsub_cancel_left] at hb
    exact (List.pairwise_append.mp hstrict').2.2 a (Multiset.mem_coe.mp ha) b
      (Multiset.mem_coe.mp hb)

/-! ### Claim C1: fusing the threshold filter into the fold -/

theorem foldl_filter_fusion (step : List HeapEntry → HeapEntry → List HeapEntry)
    (f : IndexedDocument → HeapEntry) (t : ℚ) :
    ∀ (vals : List IndexedDocument) (acc : List HeapEntry),
      vals.foldl (fun heap ix =>
        if (f ix).similarity < t then heap else step heap (f ix)) acc =
      ((vals.map f).filter fun e => ¬ e.similarity < t).foldl step acc := by
  intro vals
  induction vals with
  | nil => intro acc; rfl
  | cons v rest ih =>
    intro acc
    by_cases hv : (f v).similarity < t
    · have hp : (decide (¬ (f v).similarity < t)) = false := by simp [hv]
      simp only [List.foldl_cons, List.map_cons, List.filter_cons]
      rw [if_pos hv, hp, if_neg Bool.false_ne_true]
      exact ih acc
    · have hp : (decide (¬ (f v).similarity < t)) = true := by simp [hv]
      simp only [List.foldl_cons, List.map_cons, List.filter_cons]
      rw [if_neg hv, hp, if_pos rfl, List.foldl_cons]
      exact ih (step acc (f v))

theorem search_eq_fold (sqrtFn : ℚ → ℚ) (st : VectorStore) (q : List ℚ) (k : Nat) (t : ℚ)
    (hnz : computeNorm sqrtFn q ≠ 0) :
    search sqrtFn st q k t =
      (jsSortBy leSimDesc ((qualifiedEntries sqrtFn st q t).foldl (searchStep k) [])).map
        toSearchResult := by
  simp only [search]
  rw [if_neg hnz]
  refine congrArg (List.map toSearchResult) (congrArg (jsSortBy leSimDesc) ?_)
  simp only [qualifiedEntries]
  exact foldl_filter_fusion (searchStep k)
    (fun ix =>
      ⟨ix.doc, cosineSimilarityWithNorms q (computeNorm sqrtFn q) ix.embedding ix.norm⟩)
    t (mapValues st.documents) []

/-- **C1** (amended): for a positive `topK` and a query with non-zero norm,
`search` returns results sorted by similarity in descending order, of
length `min topK |qualified|` where the qualified entries are the stored
documents whose similarity meets the threshold, and drawn from the
qualified entries; when the qualified similarities are pairwise distinct
the result is exactly the reference algorithm `specSearch` (similarity of
every document, filter by threshold, stable descending sort, first
`topK`).  Without the distinctness hypothesis the claim's exact-top-K
reading fails (`c1_counterexample`): on ties the heap keeps a different
tied document than the stable sort. -/
theorem c1_search_amended (sqrtFn : ℚ → ℚ) (st : VectorStore) (q : List ℚ) (k : Nat) (t : ℚ)
    (hk : 0 < k) (hnz : computeNorm sqrtFn q ≠ 0) :
    (search sqrtFn st q k t).Pairwise (fun a b => b.similarity ≤ a.similarity) ∧
    (search sqrtFn st q k t).length = min k (qualifiedEntries sqrtFn st q t).length ∧
    ((search sqrtFn st q k t : List SearchResult) : Multiset SearchResult) ≤
      ↑((qualifiedEntries sqrtFn st q t).map toSearchResult) ∧
    (DistinctSims (qualifiedEntries sqrtFn st q t) →
      search sqrtFn st q k t = specSearch sqrtFn st q k t) := by
  have hfold := foldSearch_inv k hk (qualifiedEntries sqrtFn st q t) [] [] (searchInv_nil k)
  rw [List.nil_append] at hfold
  obtain ⟨hH, hHlen, hHle, hHtop⟩ := hfold
  have heq := search_eq_fold sqrtFn st q k t hnz
  refine ⟨?_, ?_, ?_, ?_⟩
  · rw [heq, List.pairwise_map]
    exact leSimDesc_sorted _
  · rw [heq, List.length_map, (jsSortBy_perm leSimDesc _).length_eq]
    exact hHlen
  · rw [heq]
    have hperm : ((jsSortBy leSimDesc
        ((qualifiedEntries sqrtFn st q t).foldl (searchStep k) [])).map toSearchResult).Perm
        (((qualifiedEntries sqrtFn st q t).foldl (searchStep k) []).map toSearchResult) :=
      (jsSortBy_perm _ _).map _
    rw [Multiset.coe_eq_coe.mpr hperm, ← Multiset.map_coe, ← Multiset.map_coe]
    exact Multiset.map_le_map hHle
  · intro hd
    have hT := hHtop hd
    have hSpec := sorted_take_isTopK k (qualifiedEntries sqrtFn st q t) hd
    have hMeq : (↑((qualifiedEntries sqrtFn st q t).foldl (searchStep k) []) :
        Multiset HeapEntry) = ↑(topkSpec k (qualifiedEntries sqrtFn st q t)) :=
      isTopK_unique k _ _ _ hT hSpec
    have hpermHT : (((qualifiedEntries sqrtFn st q t).foldl (searchStep k) [])).Perm
        (topkSpec k (qualifiedEntries sqrtFn st q t)) := Multiset.coe_eq_coe.mp hMeq
    have hdH : DistinctSims ((qualifiedEntries sqrtFn st q t).foldl (searchStep k) []) :=
      distinctSims_of_le _ _ hd hHle
    have hne1 : (jsSortBy leSimDesc
        ((qualifiedEntries sqrtFn st q t).foldl (searchStep k) [])).Pairwise
        (fun a b => a.similarity ≠ b.similarity) :=
      ((jsSortBy_perm leSimDesc _).pairwise_iff fun hab => Ne.symm hab).mpr hdH
    have hstrict1 := pairwise_strict_of_sorted_ne _ (leSimDesc_sorted _) hne1
    have hdQs : (jsSortBy leSimDesc (qualifiedEntries sqrtFn st q t)).Pairwise
        (fun a b => a.similarity ≠ b.similarity) :=
      ((jsSortBy_perm leSimDesc _).pairwise_iff fun hab => Ne.symm hab).mpr hd
    have hsorted2 : (topkSpec k (qualifiedEntries sqrtFn st q t)).Pairwise
        (fun a b => b.similarity ≤ a.similarity) :=
      (leSimDesc_sorted (qualifiedEntries sqrtFn st q t)).sublist (List.take_sublist k _)
    have hne2 : (topkSpec k (qualifiedEntries sqrtFn st q t)).Pairwise
        (fun a b => a.similarity ≠ b.similarity) :=
      hdQs.sublist (List.take_sublist k _)
    have hstrict2 := pairwise_strict_of_sorted_ne _ hsorted2 hne2
    have hlisteq : jsSortBy leSimDesc ((qualifiedEntries sqrtFn st q t).foldl (searchStep k) [])
        = topkSpec k (qualifiedEntries sqrtFn st q t) :=
      sorted_distinct_unique _ _ hstrict1 hstrict2 ((jsSortBy_perm leSimDesc _).trans hpermHT)
    rw [heq, hlisteq]
    rfl

/-- **C1** counterexample to the claim as stated: with two documents tied
at similarity 3 (store order `p1`, `p2`) and one at similarity 5, a
`topK = 2` search returns `p3, p2` — the heap evicts the earlier tied
document — while the claimed compute-all/sort-descending/truncate
reference (stable sort, as `Array.prototype.sort` is) returns `p3, p1`;
the two result lists differ even as sets of ids. -/
theorem c1_counterexample :
    search (fun _ => 1) c1TieStore [1] 2 0 ≠ specSearch (fun _ => 1) c1TieStore [1] 2 0 := by
  have h1 : (search (fun _ => 1) c1TieStore [1] 2 0).map (·.id) = ["p3", "p2"] := by
    norm_num [search, c1TieStore, addDocuments, emptyStore, addToIndex, mapSet, mapGet, mapHas,
      mapValues, setAdd, saveToDisk, computeNorm, sumSquares, dotProduct,
      cosineSimilarityWithNorms, searchStep, heapBubbleUp, bubbleUpLoop, heapBubbleDown,
      bubbleDownLoop, swapAt, entAt, simAt, dummyEntry, jsSortBy, insertSorted, leSimDesc,
      toSearchResult, List.foldl, List.foldr]
  have h2 : (specSearch (fun _ => 1) c1TieStore [1] 2 0).map (·.id) = ["p3", "p1"] := by
    norm_num [specSearch, qualifiedEntries, c1TieStore, addDocuments, emptyStore, addToIndex,
      mapSet, mapGet, mapHas, mapValues, setAdd, saveToDisk, computeNorm, sumSquares,
      dotProduct, cosineSimilarityWithNorms, jsSortBy, insertSorted, leSimDesc,
      toSearchResult, List.filter, List.take, List.foldr, List.range_succ, List.range_zero,
      List.foldl]
  intro heq
  rw [heq, h2] at h1
  simp at h1

/-- Witness for `c1_search_amended`: three stored documents with distinct
similarities 3, 4, 5, query `[1]`, `topK = 2`, threshold 0; both
hypotheses hold and the search equals the reference algorithm. -/
theorem c1_witness :
    0 < 2 ∧ computeNorm (fun _ => (1 : ℚ)) [1] ≠ 0 ∧
    search (fun _ => 1) c1WitnessStore [1] 2 0 =
      specSearch (fun _ => 1) c1WitnessStore [1] 2 0 := by
  have hd : DistinctSims (qualifiedEntries (fun _ => 1) c1WitnessStore [1] 0) := by
    norm_num [DistinctSims, qualifiedEntries, c1WitnessStore, addDocuments, emptyStore,
      addToIndex, mapSet, mapGet, mapHas, mapValues, setAdd, saveToDisk, computeNorm,
      sumSquares, dotProduct, cosineSimilarityWithNorms, List.filter, List.pairwise_cons,
      List.range_succ, List.range_zero, List.foldl]
  exact ⟨by norm_num, one_ne_zero,
    (c1_search_amended (fun _ => 1) c1WitnessStore [1] 2 0 (by norm_num) one_ne_zero).2.2.2 hd⟩

end SmartJournal
